import Mathlib

/-!
Shallow embedding of the ProjectQ C++ state-vector simulator
(`projectq/backends/_sim/include/simulator.hpp`).

Amplitudes (`std::complex<double>`) are modelled as exact complex numbers;
`std::norm` is `Complex.normSq`.  `std::size_t` arithmetic that can wrap is
made explicit modulo `2 ^ wordBits`.  The qubit map (`std::map<unsigned,
unsigned>`) is an association list kept sorted by key.  Engine operations
are modelled after the fusion buffer has been flushed (each of them begins
with `run()` in the source) so their state is the triple `(N_, vec_, map_)`;
the fusion scheduling of `apply_controlled_gate` is modelled separately.
Fallible operations return the (possibly updated) state together with an
optional error message; in the source every `throw` of these operations
happens before any mutation of the fields, which the translation mirrors by
returning the unchanged state alongside the message.
-/

namespace ProjectQSim

noncomputable section

/-- `default_tol_ = 1.e-12` from `simulator.hpp` line 45. -/
def defaultTol : ℝ := 1 / 10 ^ 12

/-- Bit width of `std::size_t`. -/
def wordBits : ℕ := 64

/-- Wrapping (`std::size_t`) subtraction, for operands below `2 ^ wordBits`. -/
def usub (a b : ℕ) : ℕ := (2 ^ wordBits + a - b) % 2 ^ wordBits

/-- `Simulator::Map = std::map<unsigned, unsigned>`, an association list
kept sorted by key (as `std::map` stores it). -/
abbrev QubitMap := List (ℕ × ℕ)

/-- `map_.count(id) != 0`. -/
def mapContains (m : QubitMap) (id : ℕ) : Bool :=
  m.any fun p => p.1 == id

/-- The value stored for key `id` (0 if absent). -/
def mapGet (m : QubitMap) (id : ℕ) : ℕ :=
  ((m.find? fun p => p.1 == id).map Prod.snd).getD 0

/-- `map_[id] = v`: update the entry for `id` in place, or add one.
(`std::map` stores its entries sorted by key; no modelled observable
depends on the storage order, so a fresh key is appended.) -/
def mapSet (m : QubitMap) (id v : ℕ) : QubitMap :=
  match m with
  | [] => [(id, v)]
  | p :: rest =>
    if p.1 = id then (id, v) :: rest
    else p :: mapSet rest id v

/-- Reading `map_[id]` as an rvalue: `std::map::operator[]` default-inserts
the value 0 when the key is absent and returns the stored value. -/
def mapIndex (m : QubitMap) (id : ℕ) : QubitMap × ℕ :=
  if mapContains m id then (m, mapGet m id) else (mapSet m id 0, 0)

/-- `map_.erase(id)`. -/
def mapErase (m : QubitMap) (id : ℕ) : QubitMap :=
  m.filter fun p => p.1 != id

/-- Simulator state between flushes: qubit count `N_`, wavefunction `vec_`
and id-to-position map `map_` (`simulator.hpp` lines 624-626). -/
structure Simulator where
  N : ℕ
  vec : List ℂ
  map : QubitMap

/-- `Simulator::allocate_qubit` (`simulator.hpp` lines 62-85): if the id is
already mapped, throw (nothing was mutated before the throw); otherwise
`map_[id] = N_++` and the state vector grows to `2 ^ N_` entries, the old
entries becoming the low part and the rest zero-filled. -/
def allocate_qubit (s : Simulator) (id : ℕ) : Simulator × Option String :=
  if mapContains s.map id then
    (s, some "AllocateQubit: ID already exists. Qubit IDs should be unique.")
  else
    ({ N := s.N + 1
       vec := (List.range (2 ^ (s.N + 1))).map fun i =>
         if i < s.vec.length then s.vec.getD i 0 else 0
       map := mapSet s.map id s.N }, none)

/-! ### Association-list lemmas -/

theorem mapGet_nil (k : ℕ) : mapGet [] k = 0 := by
  simp [mapGet]

theorem mapGet_cons_self (a b k : ℕ) (rest : QubitMap) (h : a = k) :
    mapGet ((a, b) :: rest) k = b := by
  simp [mapGet, List.find?_cons_of_pos, h]

theorem mapGet_cons_ne (a b k : ℕ) (rest : QubitMap) (h : a ≠ k) :
    mapGet ((a, b) :: rest) k = mapGet rest k := by
  simp only [mapGet, List.find?]
  have : (a == k) = false := by simp [h]
  simp [this]

theorem mapContains_cons (a b k : ℕ) (rest : QubitMap) :
    mapContains ((a, b) :: rest) k = (a == k || mapContains rest k) := by
  simp [mapContains]

theorem mapSet_cons (a b q v : ℕ) (rest : QubitMap) :
    mapSet ((a, b) :: rest) q v =
      if a = q then (q, v) :: rest
      else (a, b) :: mapSet rest q v := by
  rfl

theorem mapGet_mapSet_self (m : QubitMap) (q v : ℕ) :
    mapGet (mapSet m q v) q = v := by
  induction m with
  | nil => simp [mapSet, mapGet]
  | cons p rest ih =>
    obtain ⟨a, b⟩ := p
    rw [mapSet_cons]
    by_cases h2 : a = q
    · rw [if_pos h2, mapGet_cons_self _ _ _ _ rfl]
    · rw [if_neg h2, mapGet_cons_ne a b q _ h2]
      exact ih

theorem mapGet_mapSet_ne (m : QubitMap) (q v k : ℕ) (h : k ≠ q) :
    mapGet (mapSet m q v) k = mapGet m k := by
  induction m with
  | nil => simp [mapSet, mapGet_nil, mapGet_cons_ne q v k [] (Ne.symm h)]
  | cons p rest ih =>
    obtain ⟨a, b⟩ := p
    rw [mapSet_cons]
    by_cases h2 : a = q
    · rw [if_pos h2, mapGet_cons_ne q v k _ (Ne.symm h),
        mapGet_cons_ne a b k _ (fun hh => h (hh.symm.trans h2))]
    · rw [if_neg h2]
      by_cases hak : a = k
      · rw [mapGet_cons_self a b k _ hak, mapGet_cons_self a b k _ hak]
      · rw [mapGet_cons_ne a b k _ hak, mapGet_cons_ne a b k _ hak]
        exact ih

theorem beqComm (x y : ℕ) : (x == y) = (y == x) := by
  by_cases h : x = y
  · subst h
    rfl
  · have h1 : (x == y) = false := beq_eq_false_iff_ne.mpr h
    have h2 : (y == x) = false := beq_eq_false_iff_ne.mpr (Ne.symm h)
    rw [h1, h2]

theorem mapContains_mapSet (m : QubitMap) (q v k : ℕ) :
    mapContains (mapSet m q v) k = (k == q || mapContains m k) := by
  induction m with
  | nil => simp [mapSet, mapContains, beqComm]
  | cons p rest ih =>
    obtain ⟨a, b⟩ := p
    rw [mapSet_cons]
    by_cases h2 : a = q
    · subst h2
      rw [if_pos rfl, mapContains_cons, mapContains_cons, beqComm k a]
      cases hak : (a == k) <;> rfl
    · rw [if_neg h2, mapContains_cons, mapContains_cons, ih]
      cases hak : (a == k) <;> cases hkq : (k == q) <;> rfl

theorem mapSet_of_not_contains (m : QubitMap) (q v : ℕ)
    (h : mapContains m q = false) : mapSet m q v = m ++ [(q, v)] := by
  induction m with
  | nil => rfl
  | cons p rest ih =>
    obtain ⟨a, b⟩ := p
    rw [mapContains_cons] at h
    have ha : a ≠ q := by
      intro hh
      rw [hh] at h
      simp at h
    rw [mapSet_cons, if_neg ha, ih (by
      revert h
      cases mapContains rest q <;> simp)]
    rfl

theorem mapIndex_of_contains (m : QubitMap) (id : ℕ) (h : mapContains m id = true) :
    mapIndex m id = (m, mapGet m id) := by
  simp [mapIndex, h]

/-- Keys of the map. -/
def mapKeys (m : QubitMap) : List ℕ := m.map Prod.fst

/-- Values (bit positions) of the map. -/
def mapValues (m : QubitMap) : List ℕ := m.map Prod.snd

theorem mapContains_iff_mem_keys (m : QubitMap) (id : ℕ) :
    mapContains m id = true ↔ id ∈ mapKeys m := by
  simp only [mapContains, mapKeys, List.any_eq_true, List.mem_map, beq_iff_eq]

/-! ### Norm helpers (`std::norm` is the squared magnitude, `Complex.normSq`) -/

/-- Cumulative squared norm of the first `k` amplitudes. -/
def cumNorm (vec : List ℂ) (k : ℕ) : ℝ :=
  ((vec.take k).map Complex.normSq).sum

/-- Total squared norm of the state vector. -/
def totalNorm (vec : List ℂ) : ℝ :=
  (vec.map Complex.normSq).sum

/-- Squared norm of the amplitudes whose index agrees with `(mask, val)`,
the reduction computed by the zeroing loops of `measure_qubits` and
`collapse_wavefunction`. -/
def keptNorm (vec : List ℂ) (mask val : ℕ) : ℝ :=
  ∑ i ∈ Finset.range vec.length,
    if i &&& mask = val then Complex.normSq (vec.getD i 0) else 0

/-- The base indices `i + j` (outer stride `i` a multiple of `2·delta`,
inner `0 ≤ j < delta`) visited by the strided loops of
`get_classical_value`, `is_classical` and `collapse_vector`: exactly the
indices below `len` whose bit at the stride position is 0, in increasing
order. -/
def strideBases (len delta : ℕ) : List ℕ :=
  (List.range len).filter fun i => i / delta % 2 == 0

/-- Some 0-half amplitude at stride `delta` has squared norm above `tol`
(the `up` reduction of `is_classical`, lines 113-121). -/
def massLow (vec : List ℂ) (delta : ℕ) (tol : ℝ) : Prop :=
  ∃ b ∈ strideBases vec.length delta, Complex.normSq (vec.getD b 0) > tol

/-- Some 1-half amplitude at stride `delta` has squared norm above `tol`
(the `down` reduction of `is_classical`). -/
def massHigh (vec : List ℂ) (delta : ℕ) (tol : ℝ) : Prop :=
  ∃ b ∈ strideBases vec.length delta, Complex.normSq (vec.getD (b + delta) 0) > tol

/-! ### Engine operations -/

open Classical in
/-- The scan of `Simulator::get_classical_value` (lines 87-105): visit the
pair `(b, b + delta)` for each base index in loop order; answer `false` at
the first 0-half entry with norm above `tol` and `true` at the first 1-half
entry above `tol`; hitting the end is the internal error. -/
def classicalScan (vec : List ℂ) (delta : ℕ) (tol : ℝ) : List ℕ → Except String Bool
  | [] => .error "Get classical value: internal error, should not have come here..."
  | b :: rest =>
    if Complex.normSq (vec.getD b 0) > tol then .ok false
    else if Complex.normSq (vec.getD (b + delta) 0) > tol then .ok true
    else classicalScan vec delta tol rest

/-- `Simulator::get_classical_value` (lines 87-105). -/
def get_classical_value (s : Simulator) (id : ℕ) (tol : ℝ) :
    Simulator × Except String Bool :=
  let mp := mapIndex s.map id
  ({ s with map := mp.1 },
    classicalScan s.vec (2 ^ mp.2) tol (strideBases s.vec.length (2 ^ mp.2)))

open Classical in
/-- `Simulator::is_classical` (lines 107-124): true iff exactly one of the
two halves carries norm above `tol`. -/
def is_classical (s : Simulator) (id : ℕ) (tol : ℝ) : Simulator × Bool :=
  let mp := mapIndex s.map id
  ({ s with map := mp.1 },
    xor (decide (massLow s.vec (2 ^ mp.2) tol)) (decide (massHigh s.vec (2 ^ mp.2) tol)))

/-- `Simulator::collapse_vector` (lines 126-164). With `shrink = false`,
zero the amplitudes whose bit at the qubit position disagrees with `value`.
With `shrink = true`, keep the agreeing half compacted into a vector of
half the length, decrement every map position above the removed one and
drop the id. -/
def collapse_vector (s : Simulator) (id : ℕ) (value : Bool) (shrink : Bool) :
    Simulator :=
  let mp := mapIndex s.map id
  let pos := mp.2
  if !shrink then
    { s with
      map := mp.1
      vec := (List.range s.vec.length).map fun i =>
        if i / 2 ^ pos % 2 = (if value then 1 else 0) then s.vec.getD i 0 else 0 }
  else
    { N := s.N - 1
      vec := (List.range (2 ^ (s.N - 1))).map fun k =>
        s.vec.getD
          (k / 2 ^ pos * 2 ^ (pos + 1) + (if value then 2 ^ pos else 0) + k % 2 ^ pos) 0
      map := mapErase (mp.1.map fun p => if pos < p.2 then (p.1, p.2 - 1) else p) id }

open Classical in
/-- The cumulative scan of `measure_qubits` (lines 175-182): starting from
running sum `P` and index `pick`, while `P < r` and `pick` is in range, add
`|vec[pick]|²` and advance; return the final `pick`. -/
def scanPick (vec : List ℂ) (r : ℝ) (P : ℝ) (pick : ℕ) : ℕ :=
  if h : P < r ∧ pick < vec.length then
    scanPick vec r (P + Complex.normSq (vec.getD pick 0)) (pick + 1)
  else pick
termination_by vec.length - pick
decreasing_by
  exact Nat.sub_lt_sub_left h.2 (Nat.lt_succ_self pick)

/-- Reads the positions `map_[ids[i]]` in order, threading the
`operator[]` default-insertions through the map (lines 170-173). -/
def readPositions (m : QubitMap) : List ℕ → QubitMap × List ℕ
  | [] => (m, [])
  | id :: rest =>
    let mp := mapIndex m id
    let tl := readPositions mp.1 rest
    (tl.1, mp.2 :: tl.2)

/-- `mask |= 1UL << positions[i]` accumulated over the position list. -/
def maskOf (positions : List ℕ) : ℕ :=
  positions.foldl (fun a p => a ||| 2 ^ p) 0

/-- `val |= (res[i] & 1) << positions[i]` where `res[i]` is bit
`positions[i]` of `pick`. -/
def valOf (positions : List ℕ) (pick : ℕ) : ℕ :=
  positions.foldl (fun a p => a ||| (if pick / 2 ^ p % 2 = 1 then 2 ^ p else 0)) 0

/-- `Simulator::measure_qubits` (lines 166-213) with the drawn random
number `r` made explicit.  `pick` is decremented as a `std::size_t`, so a
scan that exits immediately wraps around to `2 ^ wordBits - 1`. -/
def measure_qubits (s : Simulator) (ids : List ℕ) (r : ℝ) :
    Simulator × List Bool :=
  let mpos := readPositions s.map ids
  let pick := usub (scanPick s.vec r 0 0) 1
  let res := mpos.2.map fun p => decide (pick / 2 ^ p % 2 = 1)
  let mask := maskOf mpos.2
  let val := valOf mpos.2 pick
  let invRoot : ℝ := 1 / Real.sqrt (keptNorm s.vec mask val)
  ({ s with
     map := mpos.1
     vec := (List.range s.vec.length).map fun i =>
       (if i &&& mask = val then s.vec.getD i 0 else 0) * (invRoot : ℂ) },
    res)

/-- `Simulator::deallocate_qubit` (lines 222-235): unknown id and
non-classical qubit are rejected before any mutation; otherwise the
classical value is read and the state collapsed and shrunk along it. -/
def deallocate_qubit (s : Simulator) (id : ℕ) : Simulator × Option String :=
  if mapContains s.map id then
    let ic := is_classical s id defaultTol
    if ic.2 then
      let gv := get_classical_value ic.1 id defaultTol
      match gv.2 with
      | .ok value => (collapse_vector gv.1 id value true, none)
      | .error e => (gv.1, some e)
    else
      (ic.1,
        some "Error: Qubit has not been measured / uncomputed! There is most likely a bug in your code.")
  else (s, some "DeallocateQubit: Qubit IDs is not known!")

/-- `Simulator::check_ids` (lines 619-622). -/
def check_ids (m : QubitMap) (ids : List ℕ) : Bool :=
  ids.all fun id => mapContains m id

/-- The remapping loop of `set_wavefunction`: `map_[ordering[i]] = i` for
`i` ascending (lines 536-538), with the running index made explicit. -/
def setOrdering (m : QubitMap) : List ℕ → ℕ → QubitMap
  | [], _ => m
  | q :: rest, i => setOrdering (mapSet m q i) rest (i + 1)

/-- `Simulator::set_wavefunction` (lines 521-543): validation happens
before any mutation; on success the map is remapped along `ordering` and
the wavefunction entries are written into `vec_` index by index. -/
def set_wavefunction (s : Simulator) (wavefunction : List ℂ) (ordering : List ℕ) :
    Simulator × Option String :=
  if wavefunction.length ≠ 2 ^ ordering.length then
    (s, some "set_wavefunction: size mismatch between wavefunction and ordering!")
  else if s.map.length ≠ ordering.length ∨ check_ids s.map ordering = false then
    (s, some "set_wavefunction(): Invalid mapping provided. Please make sure all qubits have been allocated previously (call eng.flush()).")
  else
    ({ s with
       map := setOrdering s.map ordering 0
       vec := (List.range s.vec.length).map fun i =>
         if i < wavefunction.length then wavefunction.getD i 0 else s.vec.getD i 0 },
      none)

/-- `mask |= 1UL << map_[ids[i]]` accumulated over an id list (lines
556-561; the lookups are pure there because `check_ids` has passed). -/
def orMask (m : QubitMap) (idlist : List ℕ) : ℕ :=
  idlist.foldl (fun a q => a ||| 2 ^ mapGet m q) 0

/-- `val |= (b ? 1 : 0) << map_[q]` accumulated over (id, bit) pairs. -/
def orVal (m : QubitMap) (pairs : List (ℕ × Bool)) : ℕ :=
  pairs.foldl (fun a pb => a ||| (if pb.2 then 2 ^ mapGet m pb.1 else 0)) 0

open Classical in
/-- `Simulator::collapse_wavefunction` (lines 545-584): all three
rejections happen before the wavefunction is touched; on success the
non-matching amplitudes are zeroed and the matching ones scaled by
`1 / sqrt P`. -/
def collapse_wavefunction (s : Simulator) (ids : List ℕ) (values : List Bool) :
    Simulator × Option String :=
  if ids.length ≠ values.length then
    (s, some "collapse_wavefunction(): ids and values size mismatch")
  else if check_ids s.map ids = false then
    (s, some "collapse_wavefunction(): Unknown qubit id(s) provided. Try calling eng.flush() before invoking this function.")
  else
    let mask := orMask s.map ids
    let val := orVal s.map (ids.zip values)
    let P := keptNorm s.vec mask val
    if P < defaultTol then
      (s, some "collapse_wavefunction(): Invalid collapse! Probability is ~0.")
    else
      ({ s with
         vec := (List.range s.vec.length).map fun i =>
           if i &&& mask = val then s.vec.getD i 0 * ((1 / Real.sqrt P : ℝ) : ℂ)
           else 0 },
        none)

/-- The accumulation loop of `get_amplitude` (lines 446-454): walks the id
list with its running index `i` into `bit_string`, breaking at the first
unmapped id; returns the pair `(chk, index)`. -/
def ampScan (m : QubitMap) (bits : List Bool) :
    List ℕ → ℕ → ℕ → ℕ → ℕ × ℕ
  | [], _, chk, index => (chk, index)
  | q :: rest, i, chk, index =>
    if mapContains m q then
      ampScan m bits rest (i + 1) (chk ||| 2 ^ mapGet m q)
        (index ||| (if bits.getD i false then 2 ^ mapGet m q else 0))
    else (chk, index)

/-- `Simulator::get_amplitude` (lines 443-461): rejects unless the
accumulated check mask plus one equals the vector length; reads the
amplitude otherwise, mutating nothing. -/
def get_amplitude (s : Simulator) (bit_string : List Bool) (ids : List ℕ) :
    Except String ℂ :=
  let ci := ampScan s.map bit_string ids 0 0 0
  if ci.1 + 1 ≠ s.vec.length then
    .error "The second argument to get_amplitude() must be a permutation of all allocated qubits. Please make sure you have called eng.flush()."
  else .ok (s.vec.getD ci.2 0)

/-! ### Gate fusion scheduling (`apply_controlled_gate`) -/

/-- A queued controlled gate: row-major matrix entries, target ids and
control ids (the payload handed to `fusion::Fusion::insert`). -/
structure Gate where
  m : List ℂ
  ids : List ℕ
  ctrl : List ℕ

/-- Modelled from the spec: `fusion.hpp` is not under `src/`.  The fusion
buffer accumulates the pending gates in insertion order; `insert` appends
and `num_qubits` counts the distinct target qubits involved. -/
structure Fusion where
  gates : List Gate

/-- Modelled from the spec: `Fusion::insert` extends the pending composite. -/
def Fusion.insert (F : Fusion) (g : Gate) : Fusion := ⟨F.gates ++ [g]⟩

/-- Modelled from the spec: `Fusion::num_qubits`, the count of distinct
target qubits involved in the pending composite. -/
def Fusion.num_qubits (F : Fusion) : ℕ :=
  ((F.gates.map Gate.ids).flatten.dedup).length

/-- Modelled from the spec: the state `apply_controlled_gate` manipulates,
namely the pending buffer `fused_gates_` with the configured bounds, plus
the record `applied` of the gates `run` has already dispatched to the
kernels (the kernel dispatch is not under `src/`; per the spec the state
after a flush is equivalent to applying the queued gates in order). -/
structure SimF where
  fused_gates : Fusion
  fusion_qubits_min : ℕ
  fusion_qubits_max : ℕ
  applied : List Gate

/-- Modelled from the spec: `run()` flushes, dispatching the queued gates
in order and leaving the buffer empty. -/
def SimF.run (s : SimF) : SimF :=
  { s with applied := s.applied ++ s.fused_gates.gates, fused_gates := ⟨[]⟩ }

/-- `Simulator::apply_controlled_gate` (lines 237-255).  The comparison
`fused_gates.num_qubits() - ids.size() > fused_gates_.num_qubits()` is a
`std::size_t` subtraction, hence `usub`. -/
def apply_controlled_gate (s : SimF) (g : Gate) : SimF :=
  let fused_gates := s.fused_gates.insert g
  if s.fusion_qubits_min ≤ fused_gates.num_qubits ∧
      fused_gates.num_qubits ≤ s.fusion_qubits_max then
    SimF.run { s with fused_gates := fused_gates }
  else if s.fusion_qubits_max < fused_gates.num_qubits ∨
      s.fused_gates.num_qubits < usub fused_gates.num_qubits g.ids.length then
    let t := SimF.run s
    { t with fused_gates := t.fused_gates.insert g }
  else
    { s with fused_gates := fused_gates }

/-! ### List access helpers -/

theorem getD_range_map (f : ℕ → ℂ) (n i : ℕ) (h : i < n) :
    ((List.range n).map f).getD i 0 = f i := by
  rw [List.getD_eq_getElem?_getD, List.getElem?_map, List.getElem?_range h]
  rfl

theorem length_range_map (f : ℕ → ℂ) (n : ℕ) :
    ((List.range n).map f).length = n := by
  simp

/-! ### C2: allocate_qubit -/

/-- C2: `allocate_qubit` fails on an already-mapped id, leaving the state
unchanged; otherwise it maps the id to the old qubit count, increments the
count and replaces the vector by one of length `2 ^ (N+1)` whose low half
is the old vector and whose high half is zero. -/
theorem allocate_qubit_spec (s : Simulator) (id : ℕ)
    (hlen : s.vec.length = 2 ^ s.N) :
    (mapContains s.map id = true →
      allocate_qubit s id =
        (s, some "AllocateQubit: ID already exists. Qubit IDs should be unique.")) ∧
    (mapContains s.map id = false →
      (allocate_qubit s id).2 = none ∧
      (allocate_qubit s id).1.N = s.N + 1 ∧
      mapGet (allocate_qubit s id).1.map id = s.N ∧
      (∀ k, k ≠ id → mapGet (allocate_qubit s id).1.map k = mapGet s.map k) ∧
      (allocate_qubit s id).1.vec.length = 2 ^ (s.N + 1) ∧
      (∀ i, i < 2 ^ s.N → (allocate_qubit s id).1.vec.getD i 0 = s.vec.getD i 0) ∧
      (∀ i, 2 ^ s.N ≤ i → (allocate_qubit s id).1.vec.getD i 0 = 0)) := by
  constructor
  · intro h
    simp [allocate_qubit, h]
  · intro h
    have heq : allocate_qubit s id =
        ({ N := s.N + 1
           vec := (List.range (2 ^ (s.N + 1))).map fun i =>
             if i < s.vec.length then s.vec.getD i 0 else 0
           map := mapSet s.map id s.N }, none) := by
      rw [allocate_qubit, if_neg (by simp [h])]
    rw [heq]
    refine ⟨rfl, rfl, mapGet_mapSet_self _ _ _, fun k hk => mapGet_mapSet_ne _ _ _ _ hk,
      length_range_map _ _, ?_, ?_⟩
    · intro i hi
      have hi2 : i < 2 ^ (s.N + 1) := lt_of_lt_of_le hi (by
        have : (2:ℕ) ^ s.N ≤ 2 ^ (s.N + 1) := Nat.pow_le_pow_right (by norm_num) (Nat.le_succ _)
        exact this)
      rw [getD_range_map _ _ _ hi2]
      rw [if_pos (by rw [hlen]; exact hi)]
    · intro i hi
      by_cases hi2 : i < 2 ^ (s.N + 1)
      · rw [getD_range_map _ _ _ hi2, if_neg (by rw [hlen]; exact not_lt.mpr hi)]
      · apply List.getD_eq_default
        rw [length_range_map]
        exact not_lt.mp hi2

/-- C2 witness: allocating id 5 on a fresh one-amplitude state succeeds and
doubles the vector. -/
theorem allocate_qubit_spec_witness :
    (allocate_qubit ⟨0, [1], []⟩ 5).2 = none ∧
    (allocate_qubit ⟨0, [1], []⟩ 5).1.N = 1 ∧
    mapGet (allocate_qubit ⟨0, [1], []⟩ 5).1.map 5 = 0 := by
  have h := (allocate_qubit_spec ⟨0, [1], []⟩ 5 (by simp)).2 (by simp [mapContains])
  exact ⟨h.1, h.2.1, h.2.2.1⟩

/-! ### C9: collapse_vector without shrink -/

/-- C9: for a mapped id, `collapse_vector` with `shrink = false` zeroes
exactly the amplitudes whose bit at position `M[id]` disagrees with
`value`, leaves the agreeing amplitudes untouched (no renormalisation),
and modifies neither the vector length nor `N_` nor the map. -/
theorem collapse_vector_noshrink_spec (s : Simulator) (id : ℕ) (value : Bool)
    (h : mapContains s.map id = true) :
    (collapse_vector s id value false).N = s.N ∧
    (collapse_vector s id value false).map = s.map ∧
    (collapse_vector s id value false).vec.length = s.vec.length ∧
    (∀ i, i < s.vec.length →
      (i / 2 ^ mapGet s.map id % 2 = (if value then 1 else 0) →
        (collapse_vector s id value false).vec.getD i 0 = s.vec.getD i 0) ∧
      (i / 2 ^ mapGet s.map id % 2 ≠ (if value then 1 else 0) →
        (collapse_vector s id value false).vec.getD i 0 = 0)) := by
  have hmp : mapIndex s.map id = (s.map, mapGet s.map id) := mapIndex_of_contains _ _ h
  have heq : collapse_vector s id value false =
      { s with
        map := s.map
        vec := (List.range s.vec.length).map fun i =>
          if i / 2 ^ mapGet s.map id % 2 = (if value then 1 else 0)
          then s.vec.getD i 0 else 0 } := by
    rw [collapse_vector]
    simp only [hmp, Bool.not_false, if_pos]
  rw [heq]
  refine ⟨rfl, rfl, length_range_map _ _, ?_⟩
  intro i hi
  constructor
  · intro hbit
    rw [getD_range_map _ _ _ hi, if_pos hbit]
  · intro hbit
    rw [getD_range_map _ _ _ hi, if_neg hbit]

/-- C9 witness: on the two-amplitude state `[1, 2]` with qubit 0 at
position 0, collapsing to `false` keeps entry 0 and zeroes entry 1. -/
theorem collapse_vector_noshrink_spec_witness :
    (collapse_vector ⟨1, [1, 2], [(0, 0)]⟩ 0 false false).map = [(0, 0)] ∧
    (collapse_vector ⟨1, [1, 2], [(0, 0)]⟩ 0 false false).vec.getD 0 0 = 1 ∧
    (collapse_vector ⟨1, [1, 2], [(0, 0)]⟩ 0 false false).vec.getD 1 0 = 0 := by
  have h := collapse_vector_noshrink_spec ⟨1, [1, 2], [(0, 0)]⟩ 0 false
    (by simp [mapContains])
  refine ⟨h.2.1, ?_, ?_⟩
  · have := ((h.2.2.2 0 (by simp)).1 (by simp [mapGet]))
    simpa [mapGet] using this
  · have := ((h.2.2.2 1 (by simp)).2 (by simp [mapGet]))
    simpa [mapGet] using this

/-! ### or-fold lemmas -/

theorem foldl_or_shift {α : Type} (f : α → ℕ) (l : List α) (c : ℕ) :
    l.foldl (fun a x => a ||| f x) c = c ||| l.foldl (fun a x => a ||| f x) 0 := by
  induction l generalizing c with
  | nil => simp
  | cons x xs ih =>
    simp only [List.foldl_cons]
    rw [ih (c ||| f x), ih (0 ||| f x), Nat.zero_or, Nat.or_assoc]

theorem orMask_cons (m : QubitMap) (q : ℕ) (rest : List ℕ) :
    orMask m (q :: rest) = 2 ^ mapGet m q ||| orMask m rest := by
  rw [orMask, List.foldl_cons, foldl_or_shift, Nat.zero_or]
  rfl

theorem orVal_cons (m : QubitMap) (pb : ℕ × Bool) (rest : List (ℕ × Bool)) :
    orVal m (pb :: rest) =
      (if pb.2 then 2 ^ mapGet m pb.1 else 0) ||| orVal m rest := by
  rw [orVal, List.foldl_cons, foldl_or_shift, Nat.zero_or]
  rfl

theorem ampScan_all_mapped (m : QubitMap) (bits : List Bool) (idlist : List ℕ)
    (h : ∀ q ∈ idlist, mapContains m q = true) :
    ∀ i chk index, ampScan m bits idlist i chk index =
      (chk ||| orMask m idlist, index ||| orVal m (idlist.zip (bits.drop i))) := by
  induction idlist with
  | nil => intro i chk index; simp [ampScan, orMask, orVal]
  | cons q rest ih =>
    intro i chk index
    have hq : mapContains m q = true := h q (List.mem_cons_self _ _)
    have hrest : ∀ x ∈ rest, mapContains m x = true :=
      fun x hx => h x (List.mem_cons_of_mem _ hx)
    rw [ampScan, if_pos hq, ih hrest (i + 1), orMask_cons]
    cases hdrop : bits.drop i with
    | nil =>
      have hlen : bits.length ≤ i := by
        rw [← List.drop_eq_nil_iff, hdrop]
      have hget : bits.getD i false = false := List.getD_eq_default _ _ hlen
      have hdrop2 : bits.drop (i + 1) = [] := by
        apply List.drop_eq_nil_of_le
        omega
      rw [hget, hdrop2]
      simp [Nat.or_assoc]
    | cons b tl =>
      have h0 : bits[i]? = some b := by
        have h1 := List.getElem?_drop bits i 0
        rw [hdrop] at h1
        simpa using h1.symm
      have hget : bits.getD i false = b := by
        rw [List.getD_eq_getElem?_getD, h0]
        rfl
      have hdrop2 : bits.drop (i + 1) = tl := by
        have h2 : bits.drop (i + 1) = (bits.drop i).drop 1 := by
          rw [List.drop_drop, Nat.add_comm]
        rw [h2, hdrop]
        rfl
      rw [hget, hdrop2, List.zip_cons_cons, orVal_cons]
      simp [Nat.or_assoc]

/-! ### C6: get_amplitude -/

/-- C6 counterexample: with qubits {0, 1} allocated, the id list
`[0, 0, 1]` is not a permutation of the allocated qubits (id 0 repeats,
id 1 appears once among three entries), yet `get_amplitude` accepts it
because the accumulated OR mask still covers every position. -/
theorem get_amplitude_dup_accepted :
    ¬ ([0, 0, 1] : List ℕ).Nodup ∧
    get_amplitude ⟨2, [10, 20, 30, 40], [(0, 0), (1, 1)]⟩
      [false, false, false] [0, 0, 1] = .ok 10 := by
  constructor
  · simp
  · simp [get_amplitude, ampScan, mapContains, mapGet]

/-- C6 (amended): for all-mapped ids, `get_amplitude` fails exactly when
the OR of `1 << M[ids_i]` differs from `2 ^ N - 1`; otherwise it returns
`W[index]` with `index` the OR of `bits_i << M[ids_i]`.  (Witnessed by the
counterexample, "ids is a permutation of the allocated qubits" is
sufficient but not necessary for the mask condition.) -/
theorem get_amplitude_spec (s : Simulator) (bits : List Bool) (ids : List ℕ)
    (hlen : s.vec.length = 2 ^ s.N)
    (hm : ∀ q ∈ ids, mapContains s.map q = true) :
    (orMask s.map ids = 2 ^ s.N - 1 →
      get_amplitude s bits ids =
        .ok (s.vec.getD (orVal s.map (ids.zip bits)) 0)) ∧
    (orMask s.map ids ≠ 2 ^ s.N - 1 →
      ∃ e, get_amplitude s bits ids = .error e) := by
  have hscan := ampScan_all_mapped s.map bits ids hm 0 0 0
  rw [List.drop_zero] at hscan
  have hpow : 1 ≤ 2 ^ s.N := Nat.one_le_two_pow
  constructor
  · intro hmask
    rw [get_amplitude]
    rw [hscan]
    simp only [Nat.zero_or, hmask]
    rw [if_neg (by rw [hlen]; omega)]
  · intro hmask
    rw [get_amplitude, hscan]
    simp only [Nat.zero_or]
    rw [if_pos (by rw [hlen]; omega)]
    exact ⟨_, rfl⟩

/-- C6 witness: querying both qubits of a two-qubit state in order reads
the amplitude at the encoded index. -/
theorem get_amplitude_spec_witness :
    get_amplitude ⟨2, [10, 20, 30, 40], [(0, 0), (1, 1)]⟩ [true, false] [0, 1] =
      .ok 20 := by
  have h := (get_amplitude_spec ⟨2, [10, 20, 30, 40], [(0, 0), (1, 1)]⟩
      [true, false] [0, 1] (by simp) (by
        intro q hq
        simp only [List.mem_cons, List.not_mem_nil, or_false] at hq
        rcases hq with h | h <;> subst h <;> simp [mapContains])).1
    (by simp [orMask, mapGet])
  rw [h]
  have hval : orVal ([(0, 0), (1, 1)] : QubitMap) ([0, 1].zip [true, false]) = 1 := by
    simp [orVal, mapGet]
  show Except.ok (([10, 20, 30, 40] : List ℂ).getD
      (orVal ([(0, 0), (1, 1)] : QubitMap) ([0, 1].zip [true, false])) 0) = .ok 20
  rw [hval]
  rfl

/-! ### C5: collapse_wavefunction -/

theorem check_ids_false_iff (m : QubitMap) (ids : List ℕ) :
    check_ids m ids = false ↔ ∃ q ∈ ids, mapContains m q = false := by
  rw [check_ids, List.all_eq_false]
  constructor
  · rintro ⟨q, hq, hc⟩
    exact ⟨q, hq, by revert hc; cases mapContains m q <;> simp⟩
  · rintro ⟨q, hq, hc⟩
    exact ⟨q, hq, by simp [hc]⟩

/-- C5: `collapse_wavefunction` fails exactly on a length mismatch, an
unknown id, or a conditioned squared norm below the tolerance; on error
the state is untouched; on success the non-matching amplitudes are zeroed
and the matching ones scaled by `1 / sqrt P`, everything else unchanged. -/
theorem collapse_wavefunction_spec (s : Simulator) (ids : List ℕ)
    (values : List Bool) :
    ((collapse_wavefunction s ids values).2.isSome = true ↔
      (ids.length ≠ values.length ∨ (∃ q ∈ ids, mapContains s.map q = false) ∨
        keptNorm s.vec (orMask s.map ids) (orVal s.map (ids.zip values)) <
          defaultTol)) ∧
    ((collapse_wavefunction s ids values).2.isSome = true →
      (collapse_wavefunction s ids values).1 = s) ∧
    ((collapse_wavefunction s ids values).2 = none →
      (collapse_wavefunction s ids values).1.N = s.N ∧
      (collapse_wavefunction s ids values).1.map = s.map ∧
      (collapse_wavefunction s ids values).1.vec.length = s.vec.length ∧
      ∀ i, i < s.vec.length →
        (collapse_wavefunction s ids values).1.vec.getD i 0 =
          if i &&& orMask s.map ids = orVal s.map (ids.zip values)
          then s.vec.getD i 0 *
            ((1 / Real.sqrt (keptNorm s.vec (orMask s.map ids)
              (orVal s.map (ids.zip values))) : ℝ) : ℂ)
          else 0) := by
  by_cases h1 : ids.length ≠ values.length
  · have heq : collapse_wavefunction s ids values =
        (s, some "collapse_wavefunction(): ids and values size mismatch") := by
      rw [collapse_wavefunction, if_pos h1]
    rw [heq]
    exact ⟨by simp [h1], fun _ => rfl, by simp⟩
  · by_cases h2 : check_ids s.map ids = false
    · have heq : collapse_wavefunction s ids values =
          (s, some "collapse_wavefunction(): Unknown qubit id(s) provided. Try calling eng.flush() before invoking this function.") := by
        rw [collapse_wavefunction, if_neg h1, if_pos h2]
      rw [heq]
      refine ⟨?_, fun _ => rfl, by simp⟩
      simp only [Option.isSome_some, true_iff]
      exact Or.inr (Or.inl ((check_ids_false_iff _ _).mp h2))
    · have h2' : check_ids s.map ids = true := by
        revert h2
        cases check_ids s.map ids <;> simp
      have hnoq : ¬ ∃ q ∈ ids, mapContains s.map q = false := by
        rw [← check_ids_false_iff]
        simp [h2']
      by_cases h3 : keptNorm s.vec (orMask s.map ids)
          (orVal s.map (ids.zip values)) < defaultTol
      · have heq : collapse_wavefunction s ids values =
            (s, some "collapse_wavefunction(): Invalid collapse! Probability is ~0.") := by
          rw [collapse_wavefunction, if_neg h1, if_neg h2]
          simp only [if_pos h3]
        rw [heq]
        exact ⟨by simp [h3], fun _ => rfl, by simp⟩
      · have heq : collapse_wavefunction s ids values =
            ({ s with
               vec := (List.range s.vec.length).map fun i =>
                 if i &&& orMask s.map ids = orVal s.map (ids.zip values)
                 then s.vec.getD i 0 *
                   ((1 / Real.sqrt (keptNorm s.vec (orMask s.map ids)
                     (orVal s.map (ids.zip values))) : ℝ) : ℂ)
                 else 0 }, none) := by
          rw [collapse_wavefunction, if_neg h1, if_neg h2]
          simp only [if_neg h3]
        rw [heq]
        refine ⟨by simp [h1, hnoq, h3], by simp, fun _ => ?_⟩
        refine ⟨rfl, rfl, length_range_map _ _, fun i hi => ?_⟩
        rw [getD_range_map _ _ _ hi]

/-- C5 witness: collapsing the single qubit of the normalised state
`[1, 0]` onto `false` succeeds and keeps the state, while a collapse with
mismatched lengths fails. -/
theorem collapse_wavefunction_spec_witness :
    (collapse_wavefunction ⟨1, [1, 0], [(0, 0)]⟩ [0] []).2.isSome = true ∧
    (collapse_wavefunction ⟨1, [1, 0], [(0, 0)]⟩ [0] [false]).2 = none ∧
    (collapse_wavefunction ⟨1, [1, 0], [(0, 0)]⟩ [0] [false]).1.map = [(0, 0)] := by
  have hmm : ([0].zip [false] : List (ℕ × Bool)) = [(0, false)] := rfl
  have hmask : orMask ([(0, 0)] : QubitMap) [0] = 1 := by
    simp [orMask, mapGet]
  have hval : orVal ([(0, 0)] : QubitMap) [(0, false)] = 0 := by
    simp [orVal]
  have hkept : keptNorm [1, 0] 1 0 = 1 := by
    rw [keptNorm]
    norm_num [Finset.sum_range_succ]
  have h1 := (collapse_wavefunction_spec ⟨1, [1, 0], [(0, 0)]⟩ [0] []).1
  have h2 := collapse_wavefunction_spec ⟨1, [1, 0], [(0, 0)]⟩ [0] [false]
  refine ⟨h1.mpr (Or.inl (by simp)), ?_, ?_⟩
  · have hiff := h2.1
    have : ¬ ((collapse_wavefunction ⟨1, [1, 0], [(0, 0)]⟩ [0] [false]).2.isSome = true) := by
      rw [hiff]
      push_neg
      refine ⟨by simp, ?_, ?_⟩
      · rintro q hq
        simp only [List.mem_cons, List.not_mem_nil, or_false] at hq
        subst hq
        simp [mapContains]
      · show defaultTol ≤ keptNorm [1, 0] (orMask [(0, 0)] [0]) (orVal [(0, 0)] ([0].zip [false]))
        rw [hmm, hmask, hval, hkept, defaultTol]
        norm_num
    revert this
    cases hc : (collapse_wavefunction ⟨1, [1, 0], [(0, 0)]⟩ [0] [false]).2 <;> simp
  · have hnone : (collapse_wavefunction ⟨1, [1, 0], [(0, 0)]⟩ [0] [false]).2 = none := by
      have hiff := h2.1
      have : ¬ ((collapse_wavefunction ⟨1, [1, 0], [(0, 0)]⟩ [0] [false]).2.isSome = true) := by
        rw [hiff]
        push_neg
        refine ⟨by simp, ?_, ?_⟩
        · rintro q hq
          simp only [List.mem_cons, List.not_mem_nil, or_false] at hq
          subst hq
          simp [mapContains]
        · show defaultTol ≤ keptNorm [1, 0] (orMask [(0, 0)] [0]) (orVal [(0, 0)] ([0].zip [false]))
          rw [hmm, hmask, hval, hkept, defaultTol]
          norm_num
      revert this
      cases hc : (collapse_wavefunction ⟨1, [1, 0], [(0, 0)]⟩ [0] [false]).2 <;> simp
    exact ((h2.2.2 hnone).2.1)

/-! ### C4: set_wavefunction -/

theorem setOrdering_cons (m : QubitMap) (x : ℕ) (rest : List ℕ) (i : ℕ) :
    setOrdering m (x :: rest) i = setOrdering (mapSet m x i) rest (i + 1) := rfl

theorem setOrdering_get_notmem (m : QubitMap) (l : List ℕ) (i q : ℕ) (h : q ∉ l) :
    mapGet (setOrdering m l i) q = mapGet m q := by
  induction l generalizing m i with
  | nil => rfl
  | cons x rest ih =>
    rw [setOrdering_cons,
      ih (mapSet m x i) (i + 1) (fun hc => h (List.mem_cons_of_mem _ hc)),
      mapGet_mapSet_ne _ _ _ _ (fun hc => h (by rw [hc]; exact List.mem_cons_self _ _))]

theorem setOrdering_get_nodup (m : QubitMap) (l : List ℕ) (hnd : l.Nodup) :
    ∀ i k, (hk : k < l.length) → mapGet (setOrdering m l i) (l.get ⟨k, hk⟩) = i + k := by
  induction l generalizing m with
  | nil =>
    intro i k hk
    simp at hk
  | cons x rest ih =>
    intro i k hk
    match k with
    | 0 =>
      show mapGet (setOrdering (mapSet m x i) rest (i + 1)) x = i + 0
      rw [setOrdering_get_notmem _ _ _ _ (List.nodup_cons.mp hnd).1,
        mapGet_mapSet_self]
      omega
    | k + 1 =>
      have hk2 : k < rest.length := by simpa using hk
      show mapGet (setOrdering (mapSet m x i) rest (i + 1)) (rest.get ⟨k, hk2⟩) = i + (k + 1)
      rw [ih (mapSet m x i) (List.nodup_cons.mp hnd).2 (i + 1) k hk2]
      omega

theorem range_map_getD (l : List ℂ) :
    (List.range l.length).map (fun i => l.getD i 0) = l := by
  apply List.ext_getElem
  · simp
  · intro i h1 h2
    rw [List.getElem_map, List.getElem_range, List.getD_eq_getElem?_getD,
      List.getElem?_eq_getElem h2]
    rfl

/-- C4 counterexample: with qubits {0, 1} allocated, the ordering `[0, 0]`
is not the allocated id set (it repeats 0 and omits 1), yet
`set_wavefunction` accepts it: the count check and the membership check
both pass. -/
theorem set_wavefunction_dup_accepted :
    ¬ ([0, 0] : List ℕ).Nodup ∧
    (set_wavefunction ⟨2, [1, 0, 0, 0], [(0, 0), (1, 1)]⟩ [0, 0, 0, 1] [0, 0]).2 =
      none := by
  refine ⟨by simp, ?_⟩
  rw [set_wavefunction, if_neg (by norm_num),
    if_neg (by simp [check_ids, mapContains])]

/-- C4 (amended): `set_wavefunction` fails exactly when |ψ| ≠ 2^|ordering|,
or the map size differs from |ordering|, or some ordering entry is
unmapped — an ordering that duplicates mapped ids escapes detection; on
error the state is unchanged; on success `W := ψ`, and for a
duplicate-free ordering the map sends `ordering_i` to bit `i`. -/
theorem set_wavefunction_spec (s : Simulator) (wf : List ℂ) (ordering : List ℕ)
    (hlen : s.vec.length = 2 ^ s.N) (hsz : s.map.length = s.N) :
    ((set_wavefunction s wf ordering).2.isSome = true ↔
      (wf.length ≠ 2 ^ ordering.length ∨ s.map.length ≠ ordering.length ∨
        ∃ q ∈ ordering, mapContains s.map q = false)) ∧
    ((set_wavefunction s wf ordering).2.isSome = true →
      (set_wavefunction s wf ordering).1 = s) ∧
    ((set_wavefunction s wf ordering).2 = none →
      (set_wavefunction s wf ordering).1.vec = wf ∧
      (set_wavefunction s wf ordering).1.N = s.N ∧
      (ordering.Nodup → ∀ k, (hk : k < ordering.length) →
        mapGet (set_wavefunction s wf ordering).1.map (ordering.get ⟨k, hk⟩) = k)) := by
  by_cases h1 : wf.length ≠ 2 ^ ordering.length
  · have heq : set_wavefunction s wf ordering =
        (s, some "set_wavefunction: size mismatch between wavefunction and ordering!") := by
      rw [set_wavefunction, if_pos h1]
    rw [heq]
    exact ⟨by simp [h1], fun _ => rfl, by simp⟩
  · by_cases h2 : s.map.length ≠ ordering.length ∨ check_ids s.map ordering = false
    · have heq : set_wavefunction s wf ordering =
          (s, some "set_wavefunction(): Invalid mapping provided. Please make sure all qubits have been allocated previously (call eng.flush()).") := by
        rw [set_wavefunction, if_neg h1, if_pos h2]
      rw [heq]
      refine ⟨?_, fun _ => rfl, by simp⟩
      simp only [Option.isSome_some, true_iff]
      rcases h2 with h2 | h2
      · exact Or.inr (Or.inl h2)
      · exact Or.inr (Or.inr ((check_ids_false_iff _ _).mp h2))
    · push_neg at h2
      obtain ⟨h2a, h2b⟩ := h2
      have h2b' : check_ids s.map ordering = true := by
        revert h2b
        cases check_ids s.map ordering <;> simp
      have hnoq : ¬ ∃ q ∈ ordering, mapContains s.map q = false := by
        rw [← check_ids_false_iff]
        simp [h2b']
      push_neg at h1
      have hveclen : s.vec.length = wf.length := by
        rw [hlen, h1, ← h2a, hsz]
      have heq : set_wavefunction s wf ordering =
          ({ s with
             map := setOrdering s.map ordering 0
             vec := (List.range s.vec.length).map fun i =>
               if i < wf.length then wf.getD i 0 else s.vec.getD i 0 }, none) := by
        rw [set_wavefunction, if_neg (by omega), if_neg (by
          push_neg
          exact ⟨h2a, by simp [h2b']⟩)]
      rw [heq]
      refine ⟨by simp [h1, h2a, hnoq], by simp, fun _ => ⟨?_, rfl, ?_⟩⟩
      · show ((List.range s.vec.length).map fun i =>
          if i < wf.length then wf.getD i 0 else s.vec.getD i 0) = wf
        rw [hveclen]
        rw [List.map_congr_left (g := fun i => wf.getD i 0)
          (fun a ha => if_pos (List.mem_range.mp ha))]
        exact range_map_getD wf
      · intro hnd k hk
        show mapGet (setOrdering s.map ordering 0) (ordering.get ⟨k, hk⟩) = k
        rw [setOrdering_get_nodup s.map ordering hnd 0 k hk]
        omega

/-- C4 witness: a matching one-qubit ordering is accepted, the wavefunction
replaced and the map rebuilt. -/
theorem set_wavefunction_spec_witness :
    (set_wavefunction ⟨1, [1, 0], [(7, 0)]⟩ [0, 1] [7]).2 = none ∧
    (set_wavefunction ⟨1, [1, 0], [(7, 0)]⟩ [0, 1] [7]).1.vec = [0, 1] ∧
    mapGet (set_wavefunction ⟨1, [1, 0], [(7, 0)]⟩ [0, 1] [7]).1.map 7 = 0 := by
  have h := set_wavefunction_spec ⟨1, [1, 0], [(7, 0)]⟩ [0, 1] [7]
    (by simp) (by simp)
  have hnone : (set_wavefunction ⟨1, [1, 0], [(7, 0)]⟩ [0, 1] [7]).2 = none := by
    have : ¬ ((set_wavefunction ⟨1, [1, 0], [(7, 0)]⟩ [0, 1] [7]).2.isSome = true) := by
      rw [h.1]
      push_neg
      refine ⟨by norm_num, by norm_num, ?_⟩
      rintro q hq
      simp only [List.mem_cons, List.not_mem_nil, or_false] at hq
      subst hq
      simp [mapContains]
    revert this
    cases hc : (set_wavefunction ⟨1, [1, 0], [(7, 0)]⟩ [0, 1] [7]).2 <;> simp
  have hs := h.2.2 hnone
  exact ⟨hnone, hs.1, hs.2.2 (by simp) 0 (by simp)⟩

/-! ### C10 and C1: measure_qubits -/

theorem readPositions_all_mapped (m : QubitMap) (ids : List ℕ)
    (h : ∀ q ∈ ids, mapContains m q = true) :
    readPositions m ids = (m, ids.map (mapGet m)) := by
  induction ids with
  | nil => rfl
  | cons q rest ih =>
    have hq := h q (List.mem_cons_self _ _)
    have hrest : ∀ x ∈ rest, mapContains m x = true :=
      fun x hx => h x (List.mem_cons_of_mem _ hx)
    rw [readPositions]
    simp only [mapIndex_of_contains _ _ hq, ih hrest, List.map_cons]

theorem allOnes_bit (p : ℕ) (h : p < wordBits) :
    (2 ^ wordBits - 1) / 2 ^ p % 2 = 1 := by
  have h1 : Nat.testBit (2 ^ wordBits - 1) p = true := by
    rw [Nat.testBit_two_pow_sub_one]
    simpa using h
  rw [Nat.testBit_to_div_mod] at h1
  simpa using h1

/-- C10: a drawn random number of exactly 0 makes the cumulative scan exit
immediately with `pick = 0`; the `std::size_t` decrement wraps to the
all-ones index, so every reported outcome bit is 1 regardless of the
wavefunction (instead of the outcome decoded from index 0). -/
theorem measure_qubits_zero_draw (s : Simulator) (ids : List ℕ)
    (hm : ∀ q ∈ ids, mapContains s.map q = true ∧ mapGet s.map q < wordBits) :
    scanPick s.vec 0 0 0 = 0 ∧
    usub (scanPick s.vec 0 0 0) 1 = 2 ^ wordBits - 1 ∧
    (measure_qubits s ids 0).2 = ids.map fun _ => true := by
  have hscan : scanPick s.vec 0 0 0 = 0 := by
    rw [scanPick]
    rw [dif_neg (by simp)]
  have husub : usub (scanPick s.vec 0 0 0) 1 = 2 ^ wordBits - 1 := by
    rw [hscan, usub]
    have h2 : (1:ℕ) ≤ 2 ^ wordBits := Nat.one_le_two_pow
    have h1 : 2 ^ wordBits + 0 - 1 = 2 ^ wordBits - 1 := by omega
    rw [h1, Nat.mod_eq_of_lt (by omega)]
  refine ⟨hscan, husub, ?_⟩
  have hrp := readPositions_all_mapped s.map ids (fun q hq => (hm q hq).1)
  simp only [measure_qubits, hrp, husub]
  rw [List.map_map]
  apply List.map_congr_left
  intro q hq
  simp only [Function.comp_apply]
  exact decide_eq_true (allOnes_bit _ ((hm q hq).2))

/-- C10 witness: measuring qubit 0 of the normalised one-qubit state
`[1, 0]` with draw 0 reports `true` although all mass sits on outcome 0. -/
theorem measure_qubits_zero_draw_witness :
    (measure_qubits ⟨1, [1, 0], [(0, 0)]⟩ [0] 0).2 = [true] := by
  have h := (measure_qubits_zero_draw ⟨1, [1, 0], [(0, 0)]⟩ [0] (by
    intro q hq
    simp only [List.mem_cons, List.not_mem_nil, or_false] at hq
    subst hq
    constructor
    · simp [mapContains]
    · rw [wordBits]
      simp [mapGet])).2.2
  simpa using h

theorem cumNorm_zero (vec : List ℂ) : cumNorm vec 0 = 0 := by
  simp [cumNorm]

theorem cumNorm_succ (vec : List ℂ) (k : ℕ) (h : k < vec.length) :
    cumNorm vec (k + 1) = cumNorm vec k + Complex.normSq (vec.getD k 0) := by
  rw [cumNorm, cumNorm, List.take_succ, List.map_append, List.sum_append,
    List.getElem?_eq_getElem h]
  simp [List.getD_eq_getElem?_getD, List.getElem?_eq_getElem h]

theorem cumNorm_of_ge (vec : List ℂ) (k : ℕ) (h : vec.length ≤ k) :
    cumNorm vec k = totalNorm vec := by
  rw [cumNorm, totalNorm, List.take_of_length_le h]

theorem scanPick_spec_aux (vec : List ℂ) (r : ℝ) :
    ∀ fuel pick, vec.length - pick ≤ fuel →
      cumNorm vec pick < r → r ≤ totalNorm vec →
      pick + 1 ≤ scanPick vec r (cumNorm vec pick) pick ∧
      scanPick vec r (cumNorm vec pick) pick ≤ vec.length ∧
      r ≤ cumNorm vec (scanPick vec r (cumNorm vec pick) pick) ∧
      ∀ j, pick ≤ j → j + 1 < scanPick vec r (cumNorm vec pick) pick →
        cumNorm vec (j + 1) < r := by
  intro fuel
  induction fuel with
  | zero =>
    intro pick hf h1 h2
    exfalso
    have hge : vec.length ≤ pick := by omega
    rw [cumNorm_of_ge vec pick hge] at h1
    linarith
  | succ fuel ih =>
    intro pick hf h1 h2
    have hlt : pick < vec.length := by
      by_contra hge
      rw [cumNorm_of_ge vec pick (by omega)] at h1
      linarith
    have hunf : scanPick vec r (cumNorm vec pick) pick =
        scanPick vec r (cumNorm vec pick + Complex.normSq (vec.getD pick 0))
          (pick + 1) := by
      rw [scanPick]
      rw [dif_pos ⟨h1, hlt⟩]
    rw [hunf, ← cumNorm_succ vec pick hlt]
    by_cases hc : cumNorm vec (pick + 1) < r
    · obtain ⟨ha, hb, hcc, hd⟩ := ih (pick + 1) (by omega) hc h2
      refine ⟨by omega, hb, hcc, ?_⟩
      intro j hj hj2
      rcases Nat.eq_or_lt_of_le hj with hj | hj
      · rw [← hj]
        exact hc
      · exact hd j hj hj2
    · have hstop : scanPick vec r (cumNorm vec (pick + 1)) (pick + 1) = pick + 1 := by
        rw [scanPick]
        rw [dif_neg (by
          rintro ⟨ha, _⟩
          exact hc ha)]
      rw [hstop]
      refine ⟨le_refl _, by omega, le_of_not_lt hc, ?_⟩
      intro j hj hj2
      omega

theorem scanPick_main (vec : List ℂ) (r : ℝ) (h0 : 0 < r)
    (h1 : r ≤ totalNorm vec) :
    1 ≤ scanPick vec r 0 0 ∧ scanPick vec r 0 0 ≤ vec.length ∧
    r ≤ cumNorm vec (scanPick vec r 0 0) ∧
    ∀ j, j + 1 < scanPick vec r 0 0 → cumNorm vec (j + 1) < r := by
  have h := scanPick_spec_aux vec r vec.length 0 (by omega)
    (by rw [cumNorm_zero]; exact h0) h1
  rw [cumNorm_zero] at h
  exact ⟨h.1, h.2.1, h.2.2.1, fun j hj => h.2.2.2 j (Nat.zero_le _) hj⟩

/-- C1 counterexample: at draw `r = 0` (a value the RNG can produce in
`[0,1)`) the smallest index whose cumulative squared norm reaches `r` is 0
— already `|W[0]|² ≥ 0` — and bit 0 of index 0 is 0; but `measure_qubits`
on the state `[1, 0]` reports `true` because the unsigned decrement of
`pick` wraps. -/
theorem measure_qubits_spec_counterexample :
    cumNorm [(1 : ℂ), 0] (0 + 1) ≥ 0 ∧
    (0 : ℕ) / 2 ^ 0 % 2 ≠ 1 ∧
    (measure_qubits ⟨1, [1, 0], [(0, 0)]⟩ [0] 0).2 = [true] := by
  refine ⟨?_, by norm_num, ?_⟩
  · rw [cumNorm]
    norm_num
  · have hscan : scanPick ([1, 0] : List ℂ) 0 0 0 = 0 := by
      rw [scanPick]
      rw [dif_neg (by simp)]
    have hrp : readPositions ([(0, 0)] : QubitMap) [0] = ([(0, 0)], [0]) := by
      rw [readPositions, readPositions]
      simp [mapIndex, mapContains, mapGet]
    have husub : usub (scanPick ([1, 0] : List ℂ) 0 0 0) 1 = 2 ^ wordBits - 1 := by
      rw [hscan, usub]
      have h2 : (1:ℕ) ≤ 2 ^ wordBits := Nat.one_le_two_pow
      have h1 : 2 ^ wordBits + 0 - 1 = 2 ^ wordBits - 1 := by omega
      rw [h1, Nat.mod_eq_of_lt (by omega)]
    simp only [measure_qubits, hrp, husub, List.map_cons, List.map_nil]
    have hbit : (2 ^ wordBits - 1) / 2 ^ 0 % 2 = 1 := allOnes_bit 0 (by rw [wordBits]; omega)
    rw [decide_eq_true hbit]

/-- C1 (amended): for a draw `0 < r ≤ Σ|W[k]|²` and mapped ids,
`measure_qubits` selects the smallest index `pick` whose cumulative
squared norm reaches `r`, reports `out_i = (pick >> M[ids_i]) & 1`, zeroes
every amplitude whose index disagrees with `(mask, val)` built from the
positions and those bits, and scales the survivors by `1/√N` where `N` is
the surviving squared norm.  (At `r = 0` the unsigned decrement of `pick`
wraps, see the counterexample; for `r` above the total norm no such index
exists and the scan saturates.) -/
theorem measure_qubits_spec (s : Simulator) (ids : List ℕ) (r : ℝ)
    (h0 : 0 < r) (h1 : r ≤ totalNorm s.vec)
    (hm : ∀ q ∈ ids, mapContains s.map q = true)
    (hlen64 : s.vec.length < 2 ^ wordBits) :
    (r ≤ cumNorm s.vec (scanPick s.vec r 0 0 - 1 + 1) ∧
      ∀ j, j < scanPick s.vec r 0 0 - 1 → cumNorm s.vec (j + 1) < r) ∧
    (measure_qubits s ids r).2 =
      (ids.map (mapGet s.map)).map
        (fun p => decide ((scanPick s.vec r 0 0 - 1) / 2 ^ p % 2 = 1)) ∧
    (measure_qubits s ids r).1.map = s.map ∧
    (measure_qubits s ids r).1.N = s.N ∧
    (measure_qubits s ids r).1.vec.length = s.vec.length ∧
    (∀ i, i < s.vec.length →
      (measure_qubits s ids r).1.vec.getD i 0 =
        (if i &&& maskOf (ids.map (mapGet s.map)) =
            valOf (ids.map (mapGet s.map)) (scanPick s.vec r 0 0 - 1)
         then s.vec.getD i 0 else 0) *
          ((1 / Real.sqrt (keptNorm s.vec (maskOf (ids.map (mapGet s.map)))
            (valOf (ids.map (mapGet s.map)) (scanPick s.vec r 0 0 - 1))) : ℝ) : ℂ)) := by
  obtain ⟨hge1, hlelen, hcum, hmin⟩ := scanPick_main s.vec r h0 h1
  have hpick1 : scanPick s.vec r 0 0 - 1 + 1 = scanPick s.vec r 0 0 := by omega
  have husub : usub (scanPick s.vec r 0 0) 1 = scanPick s.vec r 0 0 - 1 := by
    rw [usub, Nat.add_sub_assoc hge1, Nat.add_mod_left,
      Nat.mod_eq_of_lt (by omega)]
  have hrp := readPositions_all_mapped s.map ids hm
  refine ⟨⟨by rw [hpick1]; exact hcum, fun j hj => hmin j (by omega)⟩, ?_, ?_, ?_, ?_, ?_⟩
  · simp only [measure_qubits, hrp, husub]
  · simp only [measure_qubits, hrp, husub]
  · simp only [measure_qubits, hrp, husub]
  · simp only [measure_qubits, hrp, husub]
    exact length_range_map _ _
  · intro i hi
    simp only [measure_qubits, hrp, husub]
    rw [getD_range_map _ _ _ hi]

/-- C1 witness: state `[0, 1]`, draw `1/2`: the scan picks index 1, the
qubit reads `true`. -/
theorem measure_qubits_spec_witness :
    (measure_qubits ⟨1, [0, 1], [(0, 0)]⟩ [0] (1 / 2)).2 = [true] ∧
    (measure_qubits ⟨1, [0, 1], [(0, 0)]⟩ [0] (1 / 2)).1.map = [(0, 0)] := by
  have htot : totalNorm [(0 : ℂ), 1] = 1 := by
    simp [totalNorm]
  have h := measure_qubits_spec ⟨1, [0, 1], [(0, 0)]⟩ [0] (1 / 2)
    (by norm_num) (by rw [htot]; norm_num)
    (by
      intro q hq
      simp only [List.mem_cons, List.not_mem_nil, or_false] at hq
      subst hq
      simp [mapContains])
    (by norm_num [wordBits])
  have hsp : scanPick ([0, 1] : List ℂ) (1 / 2) 0 0 = 2 := by
    rw [scanPick]
    rw [dif_pos ⟨by norm_num, by norm_num⟩]
    have hg0 : ([(0 : ℂ), 1].getD 0 0) = 0 := rfl
    rw [hg0]
    rw [scanPick]
    rw [dif_pos ⟨by norm_num, by norm_num⟩]
    have hg1 : ([(0 : ℂ), 1].getD 1 0) = 1 := rfl
    rw [hg1]
    rw [scanPick]
    rw [dif_neg (by
      rintro ⟨ha, _⟩
      norm_num at ha)]
  refine ⟨?_, h.2.2.1⟩
  rw [h.2.1, hsp]
  norm_num [mapGet]

/-! ### C7: deallocate_qubit -/

theorem mapContains_mapErase_self (m : QubitMap) (id : ℕ) :
    mapContains (mapErase m id) id = false := by
  rw [Bool.eq_false_iff]
  intro h
  rw [mapContains, List.any_eq_true] at h
  obtain ⟨p, hp, he⟩ := h
  rw [mapErase, List.mem_filter] at hp
  rw [beq_iff_eq] at he
  have h2 := hp.2
  rw [he] at h2
  simp at h2

theorem classicalScan_low (vec : List ℂ) (delta : ℕ) (tol : ℝ) (bases : List ℕ)
    (hex : ∃ b ∈ bases, Complex.normSq (vec.getD b 0) > tol)
    (hno : ∀ b ∈ bases, ¬ Complex.normSq (vec.getD (b + delta) 0) > tol) :
    classicalScan vec delta tol bases = .ok false := by
  induction bases with
  | nil => simp at hex
  | cons b rest ih =>
    rw [classicalScan]
    by_cases h1 : Complex.normSq (vec.getD b 0) > tol
    · rw [if_pos h1]
    · rw [if_neg h1, if_neg (hno b (List.mem_cons_self _ _))]
      apply ih
      · obtain ⟨c, hc, hcm⟩ := hex
        rcases List.mem_cons.mp hc with hc | hc
        · exact absurd (hc ▸ hcm) h1
        · exact ⟨c, hc, hcm⟩
      · exact fun c hc => hno c (List.mem_cons_of_mem _ hc)

theorem classicalScan_high (vec : List ℂ) (delta : ℕ) (tol : ℝ) (bases : List ℕ)
    (hex : ∃ b ∈ bases, Complex.normSq (vec.getD (b + delta) 0) > tol)
    (hno : ∀ b ∈ bases, ¬ Complex.normSq (vec.getD b 0) > tol) :
    classicalScan vec delta tol bases = .ok true := by
  induction bases with
  | nil => simp at hex
  | cons b rest ih =>
    rw [classicalScan]
    rw [if_neg (hno b (List.mem_cons_self _ _))]
    by_cases h1 : Complex.normSq (vec.getD (b + delta) 0) > tol
    · rw [if_pos h1]
    · rw [if_neg h1]
      apply ih
      · obtain ⟨c, hc, hcm⟩ := hex
        rcases List.mem_cons.mp hc with hc | hc
        · exact absurd (hc ▸ hcm) h1
        · exact ⟨c, hc, hcm⟩
      · exact fun c hc => hno c (List.mem_cons_of_mem _ hc)

theorem is_classical_state (s : Simulator) (id : ℕ) (tol : ℝ)
    (h : mapContains s.map id = true) :
    (is_classical s id tol).1 = s := by
  rw [is_classical]
  simp only [mapIndex_of_contains _ _ h]

theorem is_classical_true_iff (s : Simulator) (id : ℕ) (tol : ℝ)
    (h : mapContains s.map id = true) :
    (is_classical s id tol).2 = true ↔
      ((massLow s.vec (2 ^ mapGet s.map id) tol ∧
        ¬ massHigh s.vec (2 ^ mapGet s.map id) tol) ∨
       (¬ massLow s.vec (2 ^ mapGet s.map id) tol ∧
        massHigh s.vec (2 ^ mapGet s.map id) tol)) := by
  classical
  rw [is_classical]
  simp only [mapIndex_of_contains _ _ h]
  by_cases hl : massLow s.vec (2 ^ mapGet s.map id) tol <;>
    by_cases hh : massHigh s.vec (2 ^ mapGet s.map id) tol <;>
    simp [hl, hh]

theorem get_classical_value_eval (s : Simulator) (id : ℕ) (tol : ℝ)
    (h : mapContains s.map id = true) :
    get_classical_value s id tol =
      (s, classicalScan s.vec (2 ^ mapGet s.map id) tol
        (strideBases s.vec.length (2 ^ mapGet s.map id))) := by
  rw [get_classical_value]
  simp only [mapIndex_of_contains _ _ h]

theorem collapse_vector_shrink_eval (s : Simulator) (id : ℕ) (value : Bool)
    (h : mapContains s.map id = true) :
    collapse_vector s id value true =
      { N := s.N - 1
        vec := (List.range (2 ^ (s.N - 1))).map fun k =>
          s.vec.getD (k / 2 ^ mapGet s.map id * 2 ^ (mapGet s.map id + 1) +
            (if value then 2 ^ mapGet s.map id else 0) + k % 2 ^ mapGet s.map id) 0
        map := mapErase ((s.map.map fun p =>
          if mapGet s.map id < p.2 then (p.1, p.2 - 1) else p)) id } := by
  rw [collapse_vector]
  simp only [mapIndex_of_contains _ _ h, Bool.not_true, Bool.false_eq_true, if_false]

/-- C7 counterexample: on the all-zero one-qubit vector, qubit 0 is mapped
and neither half carries mass above tolerance, so mass is certainly not
above tolerance on both halves; yet `deallocate_qubit` rejects it, because
`is_classical` demands exactly one massive half. -/
theorem deallocate_qubit_spec_counterexample :
    mapContains ([(0, 0)] : QubitMap) 0 = true ∧
    ¬ (massLow [(0 : ℂ), 0] (2 ^ mapGet [(0, 0)] 0) defaultTol ∧
       massHigh [(0 : ℂ), 0] (2 ^ mapGet [(0, 0)] 0) defaultTol) ∧
    (deallocate_qubit ⟨1, [0, 0], [(0, 0)]⟩ 0).2.isSome = true := by
  classical
  have hnl : ¬ massLow [(0 : ℂ), 0] (2 ^ mapGet [(0, 0)] 0) defaultTol := by
    rintro ⟨b, hb, hmass⟩
    have hg : ([(0 : ℂ), 0].getD b 0) = 0 := by
      match b with
      | 0 => rfl
      | 1 => rfl
      | n + 2 => rfl
    rw [hg] at hmass
    rw [defaultTol] at hmass
    norm_num at hmass
  have hnh : ¬ massHigh [(0 : ℂ), 0] (2 ^ mapGet [(0, 0)] 0) defaultTol := by
    rintro ⟨b, hb, hmass⟩
    have hg : ([(0 : ℂ), 0].getD (b + 2 ^ mapGet [(0, 0)] 0) 0) = 0 := by
      have h0 : mapGet ([(0, 0)] : QubitMap) 0 = 0 := rfl
      rw [h0]
      match b with
      | 0 => rfl
      | 1 => rfl
      | n + 2 => rfl
    rw [hg] at hmass
    rw [defaultTol] at hmass
    norm_num at hmass
  have hcont : mapContains ([(0, 0)] : QubitMap) 0 = true := by simp [mapContains]
  refine ⟨hcont, fun hc => hnl hc.1, ?_⟩
  have hic : (is_classical ⟨1, [0, 0], [(0, 0)]⟩ 0 defaultTol).2 = false := by
    rw [Bool.eq_false_iff]
    intro htrue
    rcases (is_classical_true_iff ⟨1, [0, 0], [(0, 0)]⟩ 0 defaultTol hcont).mp htrue with
      ⟨hl2, _⟩ | ⟨_, hh2⟩
    · exact hnl hl2
    · exact hnh hh2
  rw [deallocate_qubit, if_pos hcont, if_neg (by rw [hic]; simp)]
  rfl

/-- C7 (amended): `deallocate_qubit` fails when the id is unmapped, and
fails with the logic error when the qubit is non-classical in the sense of
`is_classical`: it is NOT the case that exactly one of the two halves at
its bit position carries mass above tolerance (so also for mass on
neither half, not only on both); when exactly one half is massive it reads
that half as the classical value and collapses and shrinks the state along
the bit, producing a vector of length `2 ^ (N-1)` and removing the id from
M. -/
theorem deallocate_qubit_spec (s : Simulator) (id : ℕ) :
    (mapContains s.map id = false →
      deallocate_qubit s id = (s, some "DeallocateQubit: Qubit IDs is not known!")) ∧
    (mapContains s.map id = true →
      ¬ ((massLow s.vec (2 ^ mapGet s.map id) defaultTol ∧
          ¬ massHigh s.vec (2 ^ mapGet s.map id) defaultTol) ∨
         (¬ massLow s.vec (2 ^ mapGet s.map id) defaultTol ∧
          massHigh s.vec (2 ^ mapGet s.map id) defaultTol)) →
      (deallocate_qubit s id).1 = s ∧ (deallocate_qubit s id).2.isSome = true) ∧
    (mapContains s.map id = true →
      massLow s.vec (2 ^ mapGet s.map id) defaultTol →
      ¬ massHigh s.vec (2 ^ mapGet s.map id) defaultTol →
      deallocate_qubit s id = (collapse_vector s id false true, none) ∧
      (deallocate_qubit s id).2 = none ∧
      (deallocate_qubit s id).1.N = s.N - 1 ∧
      mapContains (deallocate_qubit s id).1.map id = false ∧
      (deallocate_qubit s id).1.vec.length = 2 ^ (s.N - 1) ∧
      (∀ k, k < 2 ^ (s.N - 1) →
        (deallocate_qubit s id).1.vec.getD k 0 =
          s.vec.getD (k / 2 ^ mapGet s.map id * 2 ^ (mapGet s.map id + 1) +
            k % 2 ^ mapGet s.map id) 0)) ∧
    (mapContains s.map id = true →
      ¬ massLow s.vec (2 ^ mapGet s.map id) defaultTol →
      massHigh s.vec (2 ^ mapGet s.map id) defaultTol →
      deallocate_qubit s id = (collapse_vector s id true true, none) ∧
      (deallocate_qubit s id).2 = none ∧
      (deallocate_qubit s id).1.N = s.N - 1 ∧
      mapContains (deallocate_qubit s id).1.map id = false ∧
      (deallocate_qubit s id).1.vec.length = 2 ^ (s.N - 1) ∧
      (∀ k, k < 2 ^ (s.N - 1) →
        (deallocate_qubit s id).1.vec.getD k 0 =
          s.vec.getD (k / 2 ^ mapGet s.map id * 2 ^ (mapGet s.map id + 1) +
            2 ^ mapGet s.map id + k % 2 ^ mapGet s.map id) 0)) := by
  classical
  refine ⟨?_, ?_, ?_, ?_⟩
  · intro h
    rw [deallocate_qubit, if_neg (by simp [h])]
  · intro h hnx
    have hic : (is_classical s id defaultTol).2 = false := by
      rw [Bool.eq_false_iff]
      intro htrue
      exact hnx ((is_classical_true_iff s id defaultTol h).mp htrue)
    have hic1 : (is_classical s id defaultTol).1 = s :=
      is_classical_state s id defaultTol h
    rw [deallocate_qubit, if_pos h, if_neg (by rw [hic]; simp)]
    exact ⟨hic1, rfl⟩
  · intro h hl hh
    have hic : (is_classical s id defaultTol).2 = true :=
      (is_classical_true_iff s id defaultTol h).mpr (Or.inl ⟨hl, hh⟩)
    have hic1 : (is_classical s id defaultTol).1 = s :=
      is_classical_state s id defaultTol h
    have hgv : get_classical_value s id defaultTol =
        (s, .ok false) := by
      rw [get_classical_value_eval s id defaultTol h]
      rw [classicalScan_low s.vec _ defaultTol _ hl
        (fun b hb hc => hh ⟨b, hb, hc⟩)]
    have hdeq : deallocate_qubit s id = (collapse_vector s id false true, none) := by
      rw [deallocate_qubit, if_pos h]
      simp only [hic, if_pos, hic1, hgv]
    refine ⟨hdeq, ?_⟩
    rw [hdeq]
    rw [collapse_vector_shrink_eval s id false h]
    refine ⟨rfl, rfl, mapContains_mapErase_self _ _, length_range_map _ _, ?_⟩
    intro k hk
    rw [getD_range_map _ _ _ hk]
    simp
  · intro h hl hh
    have hic : (is_classical s id defaultTol).2 = true :=
      (is_classical_true_iff s id defaultTol h).mpr (Or.inr ⟨hl, hh⟩)
    have hic1 : (is_classical s id defaultTol).1 = s :=
      is_classical_state s id defaultTol h
    have hgv : get_classical_value s id defaultTol =
        (s, .ok true) := by
      rw [get_classical_value_eval s id defaultTol h]
      rw [classicalScan_high s.vec _ defaultTol _ hh
        (fun b hb hc => hl ⟨b, hb, hc⟩)]
    have hdeq : deallocate_qubit s id = (collapse_vector s id true true, none) := by
      rw [deallocate_qubit, if_pos h]
      simp only [hic, if_pos, hic1, hgv]
    refine ⟨hdeq, ?_⟩
    rw [hdeq]
    rw [collapse_vector_shrink_eval s id true h]
    refine ⟨rfl, rfl, mapContains_mapErase_self _ _, length_range_map _ _, ?_⟩
    intro k hk
    rw [getD_range_map _ _ _ hk]
    simp

/-- C7 witness: deallocating the second qubit of `[0, 0, 1, 0]` (qubit 1
is classically `1`) succeeds, halves the state and drops the id. -/
theorem deallocate_qubit_spec_witness :
    (deallocate_qubit ⟨2, [0, 0, 1, 0], [(0, 0), (1, 1)]⟩ 1).2 = none ∧
    (deallocate_qubit ⟨2, [0, 0, 1, 0], [(0, 0), (1, 1)]⟩ 1).1.N = 1 ∧
    mapContains (deallocate_qubit ⟨2, [0, 0, 1, 0], [(0, 0), (1, 1)]⟩ 1).1.map 1 =
      false := by
  have hget : mapGet ([(0, 0), (1, 1)] : QubitMap) 1 = 1 := rfl
  have hhigh : massHigh [(0 : ℂ), 0, 1, 0] (2 ^ 1) defaultTol := by
    refine ⟨0, ?_, ?_⟩
    · rw [strideBases, List.mem_filter]
      refine ⟨?_, ?_⟩
      · show 0 ∈ List.range ([(0 : ℂ), 0, 1, 0].length)
        simp
      · decide
    · show Complex.normSq ([(0 : ℂ), 0, 1, 0].getD 2 0) > defaultTol
      have h1 : ([(0 : ℂ), 0, 1, 0].getD 2 0) = 1 := rfl
      rw [h1, defaultTol]
      norm_num
  have hlow : ¬ massLow [(0 : ℂ), 0, 1, 0] (2 ^ 1) defaultTol := by
    rintro ⟨b, hb, hmass⟩
    rw [strideBases, List.mem_filter] at hb
    obtain ⟨hb4, hbb⟩ := hb
    rw [List.mem_range] at hb4
    rw [beq_iff_eq] at hbb
    have hb4' : b < 4 := hb4
    have hbb2 : b / 2 % 2 = 0 := by simpa using hbb
    have hb2 : b = 0 ∨ b = 1 := by omega
    have hz : ([(0 : ℂ), 0, 1, 0].getD b 0) = 0 := by
      rcases hb2 with hb2 | hb2 <;> subst hb2 <;> rfl
    rw [hz, defaultTol] at hmass
    norm_num at hmass
  have h := (deallocate_qubit_spec ⟨2, [0, 0, 1, 0], [(0, 0), (1, 1)]⟩ 1).2.2.2
    (by simp [mapContains]) (by rw [hget]; exact hlow) (by rw [hget]; exact hhigh)
  exact ⟨h.2.1, h.2.2.1, h.2.2.2.1⟩

/-! ### C8: map bijection invariant -/

/-- The claimed invariant: M is a bijection between the allocated ids and
the bit positions `{0..N-1}` — keys unique, values a permutation of
`range N`. -/
def goodMap (m : QubitMap) (N : ℕ) : Prop :=
  (mapKeys m).Nodup ∧ (mapValues m).Perm (List.range N)

theorem perm_range_of (l : List ℕ) (N : ℕ) (hnd : l.Nodup)
    (hx : ∀ y ∈ l, y < N) (hl : l.length = N) : l.Perm (List.range N) := by
  have h1 : List.Subperm l (List.range N) := by
    refine List.subperm_of_subset hnd ?_
    intro y hy
    rw [List.mem_range]
    exact hx y hy
  exact h1.perm_of_length_le (by simp [hl])

theorem mapErase_of_not_contains (m : QubitMap) (id : ℕ)
    (h : mapContains m id = false) : mapErase m id = m := by
  induction m with
  | nil => rfl
  | cons p rest ih =>
    obtain ⟨a, b⟩ := p
    rw [mapContains_cons] at h
    have ha : a ≠ id := by
      intro hh
      rw [hh] at h
      simp at h
    rw [mapErase, List.filter_cons, if_pos (by simpa using ha)]
    rw [mapErase] at ih
    rw [ih (by
      revert h
      cases mapContains rest id <;> simp)]

theorem mapErase_cons_self (a b : ℕ) (rest : QubitMap) :
    mapErase ((a, b) :: rest) a = mapErase rest a := by
  rw [mapErase, List.filter_cons, if_neg (by simp)]
  rfl

theorem mapErase_cons_ne (a b id : ℕ) (rest : QubitMap) (h : a ≠ id) :
    mapErase ((a, b) :: rest) id = (a, b) :: mapErase rest id := by
  rw [mapErase, List.filter_cons, if_pos (by simpa using h)]
  rfl

theorem mapErase_map_comm (m : QubitMap) (id : ℕ) (f : ℕ × ℕ → ℕ × ℕ)
    (hf : ∀ p, (f p).1 = p.1) :
    mapErase (m.map f) id = (mapErase m id).map f := by
  induction m with
  | nil => rfl
  | cons p rest ih =>
    rw [List.map_cons]
    by_cases hp : p.1 = id
    · have hfp : (f p).1 = id := by rw [hf p, hp]
      rw [show f p = ((f p).1, (f p).2) from rfl, hfp]
      rw [show p = (p.1, p.2) from rfl, hp]
      rw [mapErase_cons_self, mapErase_cons_self]
      exact ih
    · have hfp : (f p).1 ≠ id := by rw [hf p]; exact hp
      rw [show f p = ((f p).1, (f p).2) from rfl]
      rw [show p = (p.1, p.2) from rfl]
      rw [mapErase_cons_ne _ _ _ _ hfp, mapErase_cons_ne _ _ _ _ hp]
      rw [List.map_cons, ih]

theorem values_erase_perm (m : QubitMap) (id : ℕ)
    (hnd : (mapKeys m).Nodup) (h : mapContains m id = true) :
    (mapValues m).Perm (mapGet m id :: mapValues (mapErase m id)) := by
  induction m with
  | nil => simp [mapContains] at h
  | cons p rest ih =>
    obtain ⟨a, b⟩ := p
    rw [mapKeys, List.map_cons, List.nodup_cons] at hnd
    by_cases ha : a = id
    · subst ha
      have hrest : mapContains rest a = false := by
        rw [Bool.eq_false_iff]
        intro hc
        exact hnd.1 ((mapContains_iff_mem_keys rest a).mp hc)
      rw [mapErase_cons_self, mapErase_of_not_contains rest a hrest,
        mapGet_cons_self a b a rest rfl]
      exact List.Perm.refl _
    · have hrest : mapContains rest id = true := by
        rw [mapContains_cons] at h
        revert h
        have : (a == id) = false := by simpa using ha
        rw [this]
        simp
      rw [mapErase_cons_ne a b id rest ha, mapGet_cons_ne a b id rest ha]
      show (b :: mapValues rest).Perm
        (mapGet rest id :: b :: mapValues (mapErase rest id))
      exact ((ih hnd.2 hrest).cons b).trans (List.Perm.swap _ _ _)

theorem dec_perm_range (V : List ℕ) (pos N : ℕ)
    (hperm : (pos :: V).Perm (List.range N)) :
    (V.map fun v => if pos < v then v - 1 else v).Perm (List.range (N - 1)) := by
  have hnd : (pos :: V).Nodup := hperm.symm.nodup (List.nodup_range N)
  have hmem : ∀ y ∈ pos :: V, y < N := by
    intro y hy
    have := hperm.subset hy
    rwa [List.mem_range] at this
  have hposN : pos < N := hmem pos (List.mem_cons_self _ _)
  have hVmem : ∀ v ∈ V, v < N ∧ v ≠ pos := by
    intro v hv
    refine ⟨hmem v (List.mem_cons_of_mem _ hv), ?_⟩
    intro hvp
    rw [List.nodup_cons] at hnd
    exact hnd.1 (hvp ▸ hv)
  have hlen : V.length + 1 = N := by
    have := hperm.length_eq
    simpa using this
  apply perm_range_of
  · apply List.Nodup.map_on
    · intro x hx y hy hxy
      have hxm := hVmem x hx
      have hym := hVmem y hy
      by_cases h1 : pos < x <;> by_cases h2 : pos < y <;>
        simp only [h1, h2, if_pos, if_neg, if_true, if_false] at hxy <;> omega
    · exact (List.nodup_cons.mp hnd).2
  · intro y hy
    rw [List.mem_map] at hy
    obtain ⟨v, hv, hvy⟩ := hy
    have := hVmem v hv
    subst hvy
    by_cases h1 : pos < v <;> simp only [h1, if_true, if_false, if_pos, if_neg] <;> omega
  · rw [List.length_map]
    omega

theorem mapValues_eq_keys_map (m : QubitMap) (hnd : (mapKeys m).Nodup) :
    mapValues m = (mapKeys m).map (mapGet m) := by
  induction m with
  | nil => rfl
  | cons p rest ih =>
    obtain ⟨a, b⟩ := p
    rw [mapKeys, List.map_cons] at hnd ⊢
    rw [List.nodup_cons] at hnd
    rw [mapValues, List.map_cons, List.map_cons]
    rw [mapGet_cons_self a b a rest rfl]
    congr 1
    rw [show (List.map Prod.snd rest : List ℕ) = mapValues rest from rfl,
      ih hnd.2, mapKeys]
    apply List.map_congr_left
    intro k hk
    rw [mapGet_cons_ne a b k rest (by
      intro hak
      exact hnd.1 (hak ▸ hk))]

theorem mapKeys_mapSet_of_contains (m : QubitMap) (q v : ℕ)
    (h : mapContains m q = true) :
    mapKeys (mapSet m q v) = mapKeys m := by
  induction m with
  | nil => simp [mapContains] at h
  | cons p rest ih =>
    obtain ⟨a, b⟩ := p
    rw [mapSet_cons]
    by_cases ha : a = q
    · rw [if_pos ha, mapKeys, mapKeys, List.map_cons, List.map_cons, ha]
    · have hrest : mapContains rest q = true := by
        rw [mapContains_cons] at h
        revert h
        have : (a == q) = false := by simpa using ha
        rw [this]
        simp
      rw [if_neg ha, mapKeys, List.map_cons,
        show (List.map Prod.fst (mapSet rest q v) : List ℕ) = mapKeys (mapSet rest q v) from rfl,
        ih hrest, mapKeys]
      rfl

theorem setOrdering_keys (m : QubitMap) (l : List ℕ) (i : ℕ)
    (h : ∀ q ∈ l, mapContains m q = true) :
    mapKeys (setOrdering m l i) = mapKeys m := by
  induction l generalizing m i with
  | nil => rfl
  | cons x rest ih =>
    rw [setOrdering_cons]
    rw [ih (mapSet m x i) (i + 1) (by
      intro q hq
      rw [mapContains_mapSet]
      rw [h q (List.mem_cons_of_mem _ hq)]
      simp)]
    exact mapKeys_mapSet_of_contains m x i (h x (List.mem_cons_self _ _))

theorem check_ids_true_iff (m : QubitMap) (ids : List ℕ) :
    check_ids m ids = true ↔ ∀ q ∈ ids, mapContains m q = true := by
  simp [check_ids, List.all_eq_true]

theorem mapKeys_map_fst (m : QubitMap) (f : ℕ × ℕ → ℕ × ℕ)
    (hf : ∀ p, (f p).1 = p.1) : mapKeys (m.map f) = mapKeys m := by
  rw [mapKeys, List.map_map, mapKeys]
  exact List.map_congr_left fun p _ => hf p

theorem mapValues_map (m : QubitMap) (f : ℕ × ℕ → ℕ × ℕ) (g : ℕ → ℕ)
    (hf : ∀ p, (f p).2 = g p.2) : mapValues (m.map f) = (mapValues m).map g := by
  rw [mapValues, List.map_map, mapValues, List.map_map]
  exact List.map_congr_left fun p _ => hf p

theorem mapKeys_mapErase_sublist (m : QubitMap) (id : ℕ) :
    List.Sublist (mapKeys (mapErase m id)) (mapKeys m) :=
  List.Sublist.map Prod.fst (List.filter_sublist m)

/-- goodMap is preserved by `collapse_vector` on a mapped id, in both the
zeroing and the shrinking mode. -/
theorem goodMap_collapse_vector (s : Simulator) (id : ℕ) (value shrink : Bool)
    (h : mapContains s.map id = true) (hgood : goodMap s.map s.N) :
    goodMap (collapse_vector s id value shrink).map
      (collapse_vector s id value shrink).N := by
  cases shrink with
  | false =>
    have heq : collapse_vector s id value false =
        { s with
          vec := (List.range s.vec.length).map fun i =>
            if i / 2 ^ mapGet s.map id % 2 = (if value then 1 else 0)
            then s.vec.getD i 0 else 0 } := by
      rw [collapse_vector]
      simp only [mapIndex_of_contains _ _ h, Bool.not_false, if_pos]
    rw [heq]
    exact hgood
  | true =>
    rw [collapse_vector_shrink_eval s id value h]
    have hf : ∀ p : ℕ × ℕ,
        ((fun p : ℕ × ℕ => if mapGet s.map id < p.2 then (p.1, p.2 - 1) else p) p).1 =
          p.1 := by
      intro p
      by_cases hp : mapGet s.map id < p.2 <;> simp [hp]
    have hg : ∀ p : ℕ × ℕ,
        (if mapGet s.map id < p.2 then (p.1, p.2 - 1) else p).2 =
          (fun v => if mapGet s.map id < v then v - 1 else v) p.2 := by
      intro p
      by_cases hp : mapGet s.map id < p.2 <;> simp [hp]
    rw [mapErase_map_comm s.map id _ hf]
    constructor
    · show (mapKeys ((mapErase s.map id).map _)).Nodup
      rw [mapKeys_map_fst _ _ hf]
      exact List.Nodup.sublist (mapKeys_mapErase_sublist s.map id) hgood.1
    · show (mapValues ((mapErase s.map id).map _)).Perm (List.range (s.N - 1))
      rw [mapValues_map _ _ (fun v => if mapGet s.map id < v then v - 1 else v) hg]
      apply dec_perm_range (mapValues (mapErase s.map id)) (mapGet s.map id) s.N
      exact ((values_erase_perm s.map id hgood.1 h).symm).trans hgood.2

/-- Successful `deallocate_qubit` acts as a shrinking `collapse_vector`. -/
theorem deallocate_success_shape (s : Simulator) (id : ℕ)
    (h : (deallocate_qubit s id).2 = none) :
    mapContains s.map id = true ∧
    ∃ value, (deallocate_qubit s id).1 = collapse_vector s id value true := by
  by_cases hc : mapContains s.map id
  · refine ⟨hc, ?_⟩
    have hic1 : (is_classical s id defaultTol).1 = s :=
      is_classical_state s id defaultTol hc
    have hgv1 : (get_classical_value s id defaultTol).1 = s := by
      rw [get_classical_value_eval s id defaultTol hc]
    by_cases hic : (is_classical s id defaultTol).2 = true
    · cases hgv : (get_classical_value s id defaultTol).2 with
      | ok v =>
        refine ⟨v, ?_⟩
        rw [deallocate_qubit, if_pos hc]
        simp only [hic, if_pos, hic1, hgv, hgv1]
      | error e =>
        exfalso
        rw [deallocate_qubit, if_pos hc] at h
        simp only [hic, if_pos, hic1, hgv] at h
        exact Option.noConfusion h
    · exfalso
      have hicf : (is_classical s id defaultTol).2 = false := by
        revert hic
        cases (is_classical s id defaultTol).2 <;> simp
      rw [deallocate_qubit, if_pos hc] at h
      simp only [hicf, Bool.false_eq_true, if_false] at h
      exact Option.noConfusion h
  · exfalso
    rw [deallocate_qubit, if_neg (by simp [hc])] at h
    simp at h

/-- `collapse_wavefunction` never changes the map or the qubit count. -/
theorem collapse_wavefunction_frame (s : Simulator) (ids : List ℕ)
    (values : List Bool) :
    (collapse_wavefunction s ids values).1.map = s.map ∧
    (collapse_wavefunction s ids values).1.N = s.N := by
  classical
  constructor <;>
  · simp only [collapse_wavefunction]
    split_ifs <;> rfl

/-- Shape of a successful `set_wavefunction`. -/
theorem set_wavefunction_success_shape (s : Simulator) (wf : List ℂ)
    (ordering : List ℕ) (h : (set_wavefunction s wf ordering).2 = none) :
    s.map.length = ordering.length ∧ check_ids s.map ordering = true ∧
    (set_wavefunction s wf ordering).1.map = setOrdering s.map ordering 0 ∧
    (set_wavefunction s wf ordering).1.N = s.N := by
  by_cases h1 : wf.length ≠ 2 ^ ordering.length
  · rw [set_wavefunction, if_pos h1] at h
    simp at h
  · by_cases h2 : s.map.length ≠ ordering.length ∨ check_ids s.map ordering = false
    · rw [set_wavefunction, if_neg h1, if_pos h2] at h
      simp at h
    · push_neg at h2
      have hc : check_ids s.map ordering = true := by
        have := h2.2
        revert this
        cases check_ids s.map ordering <;> simp
      refine ⟨h2.1, hc, ?_, ?_⟩ <;>
        rw [set_wavefunction, if_neg h1, if_neg (by push_neg; exact h2)]

/-- One successful engine operation invoked with mapped (and, for
`set_wavefunction`, duplicate-free) id arguments. -/
inductive validStep : Simulator → Simulator → Prop
  | alloc (s : Simulator) (id : ℕ) (h : (allocate_qubit s id).2 = none) :
      validStep s (allocate_qubit s id).1
  | dealloc (s : Simulator) (id : ℕ) (h : (deallocate_qubit s id).2 = none) :
      validStep s (deallocate_qubit s id).1
  | collapse (s : Simulator) (id : ℕ) (value shrink : Bool)
      (h : mapContains s.map id = true) :
      validStep s (collapse_vector s id value shrink)
  | measure (s : Simulator) (ids : List ℕ) (r : ℝ)
      (h : ∀ q ∈ ids, mapContains s.map q = true) :
      validStep s (measure_qubits s ids r).1
  | setwf (s : Simulator) (wf : List ℂ) (ordering : List ℕ)
      (hnd : ordering.Nodup) (h : (set_wavefunction s wf ordering).2 = none) :
      validStep s (set_wavefunction s wf ordering).1
  | collapsewf (s : Simulator) (ids : List ℕ) (values : List Bool)
      (h : (collapse_wavefunction s ids values).2 = none) :
      validStep s (collapse_wavefunction s ids values).1

/-- C8 counterexample: `measure_qubits` invoked with the unmapped id 5
completes without error but default-inserts `5 ↦ 0` into the map, which is
then no longer a bijection onto `{0..N-1}`. -/
theorem goodMap_counterexample :
    goodMap [(0, 0)] 1 ∧
    (measure_qubits ⟨1, [1, 0], [(0, 0)]⟩ [5] (1 / 2)).1.map = [(0, 0), (5, 0)] ∧
    ¬ goodMap (measure_qubits ⟨1, [1, 0], [(0, 0)]⟩ [5] (1 / 2)).1.map 1 := by
  have hrp : readPositions ([(0, 0)] : QubitMap) [5] = ([(0, 0), (5, 0)], [0]) := by
    rw [readPositions, readPositions]
    have hni : mapIndex ([(0, 0)] : QubitMap) 5 = ([(0, 0), (5, 0)], 0) := by
      rw [mapIndex, if_neg (by simp [mapContains])]
      rw [mapSet_of_not_contains _ _ _ (by simp [mapContains])]
      rfl
    simp only [hni]
  have hmap : (measure_qubits ⟨1, [1, 0], [(0, 0)]⟩ [5] (1 / 2)).1.map =
      [(0, 0), (5, 0)] := by
    simp only [measure_qubits, hrp]
  refine ⟨⟨by simp [mapKeys], ?_⟩, hmap, ?_⟩
  · show (mapValues [(0, 0)]).Perm (List.range 1)
    have h1 : mapValues [(0, 0)] = [0] := rfl
    have h2 : List.range 1 = [0] := rfl
    rw [h1, h2]
  · rw [hmap]
    rintro ⟨_, hperm⟩
    have := hperm.length_eq
    simp [mapValues] at this

/-- C8 (amended): after every successful engine operation whose id
arguments are all mapped — and, for `set_wavefunction`, whose ordering is
duplicate-free — the qubit map stays a bijection between the allocated ids
and the positions `{0..N-1}`: keys unique, values a permutation of
`range N`.  (Operations handed unmapped ids, such as `measure_qubits`
above, silently default-insert and break the invariant.) -/
theorem goodMap_invariant (s s2 : Simulator) (hstep : validStep s s2)
    (hgood : goodMap s.map s.N) : goodMap s2.map s2.N := by
  classical
  cases hstep with
  | alloc id h =>
    have hnc : mapContains s.map id = false := by
      by_cases hcc : mapContains s.map id
      · rw [allocate_qubit, if_pos hcc] at h
        simp at h
      · simpa using hcc
    have heq : (allocate_qubit s id).1 =
        { N := s.N + 1
          vec := (List.range (2 ^ (s.N + 1))).map fun i =>
            if i < s.vec.length then s.vec.getD i 0 else 0
          map := mapSet s.map id s.N } := by
      rw [allocate_qubit, if_neg (by simp [hnc])]
    rw [heq]
    show goodMap (mapSet s.map id s.N) (s.N + 1)
    rw [mapSet_of_not_contains _ _ _ hnc]
    have hid : id ∉ mapKeys s.map := by
      intro hmem
      rw [← mapContains_iff_mem_keys] at hmem
      rw [hmem] at hnc
      simp at hnc
    constructor
    · show (mapKeys (s.map ++ [(id, s.N)])).Nodup
      have hkeys : mapKeys (s.map ++ [(id, s.N)]) = mapKeys s.map ++ [id] := by
        rw [mapKeys, List.map_append]
        rfl
      rw [hkeys]
      exact ((List.perm_append_singleton id (mapKeys s.map)).symm).nodup
        (List.nodup_cons.mpr ⟨hid, hgood.1⟩)
    · show (mapValues (s.map ++ [(id, s.N)])).Perm (List.range (s.N + 1))
      have hvals : mapValues (s.map ++ [(id, s.N)]) = mapValues s.map ++ [s.N] := by
        rw [mapValues, List.map_append]
        rfl
      rw [hvals, List.range_succ]
      refine (List.perm_append_singleton s.N (mapValues s.map)).trans ?_
      refine ((hgood.2).cons s.N).trans ?_
      exact (List.perm_append_singleton s.N (List.range s.N)).symm
  | dealloc id h =>
    obtain ⟨hc, v, heq⟩ := deallocate_success_shape s id h
    rw [heq]
    exact goodMap_collapse_vector s id v true hc hgood
  | collapse id value shrink h =>
    exact goodMap_collapse_vector s id value shrink h hgood
  | measure ids r h =>
    have hrp := readPositions_all_mapped s.map ids h
    have hmap : (measure_qubits s ids r).1.map = s.map := by
      simp only [measure_qubits, hrp]
    have hN : (measure_qubits s ids r).1.N = s.N := by
      simp only [measure_qubits, hrp]
    rw [hmap, hN]
    exact hgood
  | setwf wf ordering hnd h =>
    obtain ⟨hlen, hck, hmap, hN⟩ := set_wavefunction_success_shape s wf ordering h
    rw [hmap, hN]
    have hall : ∀ q ∈ ordering, mapContains s.map q = true :=
      (check_ids_true_iff s.map ordering).mp hck
    have hkeys : mapKeys (setOrdering s.map ordering 0) = mapKeys s.map :=
      setOrdering_keys s.map ordering 0 hall
    have hNval : (mapValues s.map).length = s.N := by
      have := hgood.2.length_eq
      simpa using this
    have hmlen : s.map.length = s.N := by
      have : (mapValues s.map).length = s.map.length := by
        rw [mapValues, List.length_map]
      omega
    have hordN : ordering.length = s.N := by omega
    have hkeysperm : ordering.Perm (mapKeys s.map) := by
      have hsub : List.Subperm ordering (mapKeys s.map) := by
        refine List.subperm_of_subset hnd ?_
        intro q hq
        rw [← mapContains_iff_mem_keys]
        exact hall q hq
      refine hsub.perm_of_length_le ?_
      rw [mapKeys, List.length_map]
      omega
    constructor
    · rw [hkeys]
      exact hgood.1
    · have hvals : mapValues (setOrdering s.map ordering 0) =
          (mapKeys s.map).map (mapGet (setOrdering s.map ordering 0)) := by
        rw [← hkeys]
        exact mapValues_eq_keys_map _ (hkeys ▸ hgood.1)
      rw [hvals]
      have hperm2 : ((mapKeys s.map).map (mapGet (setOrdering s.map ordering 0))).Perm
          (ordering.map (mapGet (setOrdering s.map ordering 0))) :=
        (hkeysperm.map _).symm
      have hord : ordering.map (mapGet (setOrdering s.map ordering 0)) =
          List.range ordering.length := by
        apply List.ext_getElem
        · simp
        · intro j hj1 hj2
          rw [List.getElem_map, List.getElem_range]
          have hjlen : j < ordering.length := by simpa using hj1
          have := setOrdering_get_nodup s.map ordering hnd 0 j hjlen
          rw [List.get_eq_getElem] at this
          rw [this]
          omega
      refine hperm2.trans ?_
      rw [hord, hordN]
  | collapsewf ids values h =>
    have hframe := collapse_wavefunction_frame s ids values
    rw [hframe.1, hframe.2]
    exact hgood

/-- C8 witness: allocating a fresh qubit on the empty simulator keeps the
invariant. -/
theorem goodMap_invariant_witness :
    goodMap (allocate_qubit ⟨0, [1], []⟩ 0).1.map
      (allocate_qubit ⟨0, [1], []⟩ 0).1.N := by
  apply goodMap_invariant ⟨0, [1], []⟩ _
    (validStep.alloc ⟨0, [1], []⟩ 0 (by
      rw [allocate_qubit, if_neg (by simp [mapContains])]))
  constructor
  · simp [mapKeys]
  · show (mapValues []).Perm (List.range 0)
    rfl

/-! ### C3: apply_controlled_gate scheduling -/

theorem num_qubits_insert_flat (F : Fusion) (g : Gate) :
    (F.insert g).num_qubits =
      ((F.gates.map Gate.ids).flatten ++ g.ids).dedup.length := by
  rw [Fusion.insert, Fusion.num_qubits]
  simp

theorem num_qubits_mono (F : Fusion) (g : Gate) :
    F.num_qubits ≤ (F.insert g).num_qubits := by
  rw [num_qubits_insert_flat, Fusion.num_qubits, ← List.card_toFinset,
    ← List.card_toFinset]
  apply Finset.card_le_card
  rw [List.toFinset_append]
  exact Finset.subset_union_left

theorem num_qubits_insert_le (F : Fusion) (g : Gate) :
    (F.insert g).num_qubits ≤ F.num_qubits + g.ids.length := by
  rw [num_qubits_insert_flat, Fusion.num_qubits, ← List.card_toFinset,
    ← List.card_toFinset, List.toFinset_append]
  calc ((F.gates.map Gate.ids).flatten.toFinset ∪ g.ids.toFinset).card
      ≤ (F.gates.map Gate.ids).flatten.toFinset.card + g.ids.toFinset.card :=
        Finset.card_union_le _ _
    _ ≤ (F.gates.map Gate.ids).flatten.toFinset.card + g.ids.length := by
        have := List.toFinset_card_le g.ids
        omega

/-- The `std::size_t` comparison `F.num < F'.num - ids.size()` holds
exactly when the subtraction wraps, i.e. when `F'.num < ids.size()`. -/
theorem usub_cond_iff (F : Fusion) (g : Gate)
    (hq : (F.insert g).num_qubits < 2 ^ wordBits)
    (hi : g.ids.length < 2 ^ wordBits) :
    (F.num_qubits < usub (F.insert g).num_qubits g.ids.length ↔
      (F.insert g).num_qubits < g.ids.length) := by
  have hca : F.num_qubits ≤ (F.insert g).num_qubits := num_qubits_mono F g
  have hab : (F.insert g).num_qubits ≤ F.num_qubits + g.ids.length :=
    num_qubits_insert_le F g
  rw [usub]
  by_cases hba : (F.insert g).num_qubits < g.ids.length
  · have hmod : (2 ^ wordBits + (F.insert g).num_qubits - g.ids.length) %
        2 ^ wordBits = 2 ^ wordBits + (F.insert g).num_qubits - g.ids.length := by
      apply Nat.mod_eq_of_lt
      omega
    rw [hmod]
    constructor
    · intro _
      exact hba
    · intro _
      omega
  · have heq : 2 ^ wordBits + (F.insert g).num_qubits - g.ids.length =
        2 ^ wordBits + ((F.insert g).num_qubits - g.ids.length) := by omega
    rw [heq, Nat.add_mod_left, Nat.mod_eq_of_lt (by omega)]
    constructor
    · intro hlt
      omega
    · intro hlt
      omega

/-- C3 counterexample: with a one-target-qubit buffer and a new gate whose
target list repeats that qubit, none of the claim's conditions (read over
the integers) holds — `F'.num_qubits = 1` is outside `[min, max] = [4, 5]`
and `1 - 2 > 1` is false — so the claim predicts a commit without flush;
but the unsigned subtraction wraps and the code flushes the buffer. -/
theorem apply_controlled_gate_counterexample :
    Fusion.num_qubits ((⟨[⟨[], [0], []⟩]⟩ : Fusion).insert ⟨[], [0, 0], []⟩) = 1 ∧
    ¬ ((4 : ℕ) ≤ 1 ∧ (1 : ℕ) ≤ 5) ∧
    ¬ ((5 : ℕ) < 1) ∧
    ¬ ((1 : ℤ) - 2 > 1) ∧
    (apply_controlled_gate ⟨⟨[⟨[], [0], []⟩]⟩, 4, 5, []⟩ ⟨[], [0, 0], []⟩).applied ≠
      (⟨⟨[⟨[], [0], []⟩]⟩, 4, 5, []⟩ : SimF).applied := by
  have hnum : Fusion.num_qubits ((⟨[⟨[], [0], []⟩]⟩ : Fusion).insert
      ⟨[], [0, 0], []⟩) = 1 := by
    rw [Fusion.insert, Fusion.num_qubits]
    rfl
  have hold : Fusion.num_qubits (⟨[⟨[], [0], []⟩]⟩ : Fusion) = 1 := by
    rw [Fusion.num_qubits]
    rfl
  have husub : usub 1 2 = 2 ^ wordBits - 1 := by
    rw [usub]
    have h2 : (2:ℕ) ≤ 2 ^ wordBits := by
      rw [wordBits]
      norm_num
    have heq : 2 ^ wordBits + 1 - 2 = 2 ^ wordBits - 1 := by omega
    rw [heq, Nat.mod_eq_of_lt (by omega)]
  have hres : (apply_controlled_gate ⟨⟨[⟨[], [0], []⟩]⟩, 4, 5, []⟩
      ⟨[], [0, 0], []⟩).applied = [⟨[], [0], []⟩] := by
    rw [apply_controlled_gate]
    rw [if_neg (by
      rw [hnum]
      show ¬ ((4 : ℕ) ≤ 1 ∧ (1 : ℕ) ≤ 5)
      omega)]
    rw [if_pos (by
      rw [hnum, hold]
      show (5 : ℕ) < 1 ∨ (1 : ℕ) < usub 1 2
      rw [husub]
      right
      rw [wordBits]
      norm_num)]
    rfl
  refine ⟨hnum, by omega, by omega, by omega, ?_⟩
  rw [hres]
  simp

/-- C3 (amended): with the second flush condition read as the source's
`std::size_t` comparison — which, by `usub_cond_iff`, triggers exactly
when the new gate's target-id list is longer than `F'` has distinct target
qubits — `apply_controlled_gate` behaves as claimed: commit-and-flush when
`min ≤ F'.num_qubits ≤ max`; flush-then-insert-into-empty when
`F'.num_qubits > max` or `F'.num_qubits < |ids|`; plain commit otherwise. -/
theorem apply_controlled_gate_spec (s : SimF) (g : Gate)
    (hq : (s.fused_gates.insert g).num_qubits < 2 ^ wordBits)
    (hi : g.ids.length < 2 ^ wordBits) :
    (s.fusion_qubits_min ≤ (s.fused_gates.insert g).num_qubits ∧
        (s.fused_gates.insert g).num_qubits ≤ s.fusion_qubits_max →
      apply_controlled_gate s g =
        ⟨⟨[]⟩, s.fusion_qubits_min, s.fusion_qubits_max,
          s.applied ++ (s.fused_gates.insert g).gates⟩) ∧
    (¬ (s.fusion_qubits_min ≤ (s.fused_gates.insert g).num_qubits ∧
        (s.fused_gates.insert g).num_qubits ≤ s.fusion_qubits_max) →
      (s.fusion_qubits_max < (s.fused_gates.insert g).num_qubits ∨
        (s.fused_gates.insert g).num_qubits < g.ids.length) →
      apply_controlled_gate s g =
        ⟨⟨[g]⟩, s.fusion_qubits_min, s.fusion_qubits_max,
          s.applied ++ s.fused_gates.gates⟩) ∧
    (¬ (s.fusion_qubits_min ≤ (s.fused_gates.insert g).num_qubits ∧
        (s.fused_gates.insert g).num_qubits ≤ s.fusion_qubits_max) →
      ¬ (s.fusion_qubits_max < (s.fused_gates.insert g).num_qubits ∨
        (s.fused_gates.insert g).num_qubits < g.ids.length) →
      apply_controlled_gate s g = { s with fused_gates := s.fused_gates.insert g }) := by
  have hiff := usub_cond_iff s.fused_gates g hq hi
  refine ⟨?_, ?_, ?_⟩
  · intro hb1
    rw [apply_controlled_gate, if_pos hb1]
    rfl
  · intro hb1 hb2
    rw [apply_controlled_gate, if_neg hb1, if_pos (by
      rcases hb2 with hb2 | hb2
      · exact Or.inl hb2
      · exact Or.inr (hiff.mpr hb2))]
    rfl
  · intro hb1 hb2
    rw [apply_controlled_gate, if_neg hb1, if_neg (by
      rintro (hcc | hcc)
      · exact hb2 (Or.inl hcc)
      · exact hb2 (Or.inr (hiff.mp hcc)))]

/-- C3 witness: a one-qubit gate entering an empty buffer with bounds
`[4, 5]` is committed without flushing. -/
theorem apply_controlled_gate_spec_witness :
    apply_controlled_gate ⟨⟨[]⟩, 4, 5, []⟩ ⟨[], [0], []⟩ =
      ⟨⟨[⟨[], [0], []⟩]⟩, 4, 5, []⟩ := by
  have hnum : Fusion.num_qubits ((⟨[]⟩ : Fusion).insert ⟨[], [0], []⟩) = 1 := by
    rw [Fusion.insert, Fusion.num_qubits]
    rfl
  have h := (apply_controlled_gate_spec ⟨⟨[]⟩, 4, 5, []⟩ ⟨[], [0], []⟩
    (by rw [hnum, wordBits]; norm_num)
    (by show (1 : ℕ) < 2 ^ wordBits; rw [wordBits]; norm_num)).2.2
    (by rw [hnum]; show ¬ ((4 : ℕ) ≤ 1 ∧ (1 : ℕ) ≤ 5); omega)
    (by rw [hnum]; show ¬ ((5 : ℕ) < 1 ∨ (1 : ℕ) < 1); omega)
  rw [h]
  rfl

end

end ProjectQSim
